import Mathlib

/-!
Verification of the term-matching and text-rewriting engine of
pf2-translate-tools (`src/core/translation_engine.py`).

Texts are modelled as lists of characters (`Str`).  Python dictionaries are
modelled as key-unique association lists built with an in-place-overwriting
insert (`dinsert`), which matches CPython's insertion-ordered `dict`.
Python's `str.lower` is modelled by mapping `Char.toLower` over the
characters, and the `re` module's `\b`/`\w` semantics are modelled with the
ASCII word-character class, as specified in the design document (§4.2 step
7: "boundary = transition between word-constituent and non-word-constituent
character, ASCII-class").

The compiled regular expression `\b(f1|f2|...|fn)\b` (case-insensitive) is
modelled by its matching semantics: at each scan position the alternatives
are tried in list order (`tryForms`), an alternative succeeding exactly when
its literal text matches case-insensitively and both word boundaries hold;
`finditer` scans left to right and resumes after the end of each match,
which is Python's non-overlapping `re.finditer` behaviour.  `re.escape`
only protects metacharacters so that the compiled alternative matches its
literal text; since the model interprets every alternative as a literal,
escaping is semantically the identity and is not represented.

The WordNet lemmatizer is the external Lemma Resolver capability; it is
modelled as a value of type `Lemmatizer` (a pure `lemmatize : word → part of
speech → word` function, as required by the spec's §6 interface).  The
situation in which the NLTK backing data cannot be obtained (the manager's
startup routine returns `False` and leaves the process-wide `_lemmatizer`
equal to `None`) is modelled by passing `none : Option Lemmatizer`; calling
`lemmatize_word` then dereferences `None`, which in Python raises
`AttributeError` — modelled as `EngineError.attributeError`.
-/

abbrev Str := List Char

/-- Model of Python `str.lower` (ASCII case folding, per the spec). -/
def toLowerStr (s : Str) : Str := s.map Char.toLower

/-- ASCII word-constituent character class used for `\b` / `\w`. -/
def isWordChar (c : Char) : Bool := c.isAlphanum || c == '_'

/-- Model of Python `str.strip`: remove leading and trailing whitespace. -/
def strip (s : Str) : Str :=
  ((s.dropWhile Char.isWhitespace).reverse.dropWhile Char.isWhitespace).reverse

/-! ### Python `dict` as a key-unique association list -/

/-- `d[k] = v`: overwrite in place if the key is present, else append. -/
def dinsert (m : List (Str × Str)) (k v : Str) : List (Str × Str) :=
  match m with
  | [] => [(k, v)]
  | (k', v') :: rest => if k' = k then (k, v) :: rest else (k', v') :: dinsert rest k v

/-- `d.get(k)`. -/
def dget (m : List (Str × Str)) (k : Str) : Option Str :=
  (m.find? (fun p => p.1 = k)).map (·.2)

/-- `d[k]` where the key is known to be present; total with a default. -/
def dgetD (m : List (Str × Str)) (k : Str) : Str := (dget m k).getD []

/-- `list(d.keys())`. -/
def dkeys (m : List (Str × Str)) : List Str := m.map (·.1)

/-! ### The Lemma Resolver capability (WordNet lemmatizer) -/

inductive POS | verb | noun
deriving DecidableEq

/-- External morphological service: `lemmatize(word, pos)` (spec §6). -/
structure Lemmatizer where
  lemmatize : Str → POS → Str

inductive EngineError
  /-- Python `AttributeError`, raised when a method is called on `None`. -/
  | attributeError
deriving DecidableEq

/-- `NLTKManager.lemmatize_word`: verb-then-noun lemmatization chain.  When
the NLTK data could not be obtained the process-wide lemmatizer is `None`
and the call raises `AttributeError`. -/
def lemmatize_word (lemmOpt : Option Lemmatizer) (w : Str) : Except EngineError Str :=
  match lemmOpt with
  | none => .error .attributeError
  | some L => .ok (L.lemmatize (L.lemmatize w .verb) .noun)

/-- The pure value computed by `lemmatize_word` when the resolver exists. -/
def wordLemma (L : Lemmatizer) (w : Str) : Str :=
  L.lemmatize (L.lemmatize w .verb) .noun

/-- The resolver contract of spec §6: on a lowercase word the resolver
returns a lowercase base form (the glossary calls lemmas "lowercased"). -/
def LowercaseClosed (L : Lemmatizer) : Prop :=
  ∀ w, toLowerStr w = w → ∀ p, toLowerStr (L.lemmatize w p) = L.lemmatize w p

/-! ### Sorting: Python `sorted(keys, key=len, reverse=True)` (stable) -/

/-- Descending-length order used for `sorted(..., key=len, reverse=True)`. -/
def lenGE (x y : Str) : Prop := y.length ≤ x.length

instance : DecidableRel lenGE := fun x y => Nat.decLe _ _

instance : IsTotal Str lenGE := ⟨fun x y => Nat.le_total y.length x.length⟩

instance : IsTrans Str lenGE := ⟨fun _ _ _ h1 h2 => Nat.le_trans h2 h1⟩

/-- Stable length-descending sort (Python's `sorted` is stable). -/
def sortKeysDesc (ks : List Str) : List Str := List.insertionSort lenGE ks

/-! ### `_join_terms_for_regex`: chunking of the alternation -/

def MAX_PATTERN_LEN : Nat := 20000

/-- The `buf`/`chunks` loop of `_join_terms_for_regex`.  Each chunk becomes
a parenthesized alternation; the top-level pattern joins the chunks with
`|`, so the overall alternative order is the concatenation of the chunks. -/
def chunkGo (maxLen : Nat) : List Str → List Str → Nat → List (List Str)
  | [], buf, _ => if buf.isEmpty then [] else [buf]
  | t :: ts, buf, cur =>
    if cur + t.length + 1 > maxLen then
      buf :: chunkGo maxLen ts [t] (t.length + 1)
    else
      chunkGo maxLen ts (buf ++ [t]) (cur + t.length + 1)

def chunkTerms (maxLen : Nat) (terms : List Str) : List (List Str) :=
  chunkGo maxLen terms [] 0

/-! ### `build_search_indexes` -/

structure SearchIndex where
  /-- `self._regex`: `none` models `None`; `some forms` models the compiled
  pattern `\b(...)\b` whose alternatives, in order, are `forms`. -/
  regexForms : Option (List Str)
  /-- `self._lower_to_original`. -/
  lower_to_original : List (Str × Str)
  /-- `self._lemma_map`. -/
  lemma_map : List (Str × Str)
deriving DecidableEq

def emptySearchIndex : SearchIndex := ⟨none, [], []⟩

/-- `self._lower_to_original = {k.lower(): k for k in sorted_keys}`. -/
def buildLower (sorted_keys : List Str) : List (Str × Str) :=
  sorted_keys.foldl (fun m k => dinsert m (toLowerStr k) k) []

/-- The `(lemma, key)` entry one key contributes to the lemma map, if any:
a key contributes when it has no interior space, its verb-then-noun lemma
differs from its own lowercase form, and that lemma is not a surface form. -/
def lemmaPairFn (L : Lemmatizer) (lower : List (Str × Str)) (k : Str) :
    Option (Str × Str) :=
  if ' ' ∈ toLowerStr k then none
  else
    if wordLemma L (toLowerStr k) ≠ toLowerStr k ∧
        dget lower (wordLemma L (toLowerStr k)) = none then
      some (wordLemma L (toLowerStr k), k)
    else none

/-- The `(lemma, key)` pairs the lemma-map loop writes, in loop order. -/
def lemmaPairs (L : Lemmatizer) (lower : List (Str × Str)) (ks : List Str) :
    List (Str × Str) :=
  ks.filterMap (lemmaPairFn L lower)

/-- The lemma-map loop of `build_search_indexes`, written monadically so
that an unavailable resolver raises out of the loop exactly as in Python. -/
def buildLemmaMap (lemmOpt : Option Lemmatizer) (lower : List (Str × Str))
    (ks : List Str) : Except EngineError (List (Str × Str)) :=
  ks.foldlM (fun m k => do
    let kl := toLowerStr k
    if ' ' ∈ kl then pure m
    else
      let lem ← lemmatize_word lemmOpt kl
      if lem ≠ kl ∧ dget lower lem = none then pure (dinsert m lem k) else pure m) []

/-- `all_forms_lower = set(lower.keys()) | set(lemma_map.keys())`. -/
def allFormsLower (lower lemmaMap : List (Str × Str)) : List Str :=
  dkeys lower ++ (dkeys lemmaMap).filter (fun x => decide (x ∉ dkeys lower))

/-- `TranslationEngine.build_search_indexes`. -/
def build_search_indexes (lemmOpt : Option Lemmatizer) (dict : List (Str × Str)) :
    Except EngineError SearchIndex :=
  if dict.isEmpty then .ok emptySearchIndex
  else do
    let sorted_keys := sortKeysDesc (dkeys dict)
    let lower := buildLower sorted_keys
    let lemmaMap ← buildLemmaMap lemmOpt lower sorted_keys
    let escaped := sortKeysDesc (allFormsLower lower lemmaMap)
    if escaped.isEmpty then
      pure (SearchIndex.mk none lower lemmaMap)
    else
      pure (SearchIndex.mk (some ((chunkTerms MAX_PATTERN_LEN escaped).flatten)) lower lemmaMap)

/-! ### The engine and the compiled-pattern matching semantics -/

structure Engine where
  translation_dict : List (Str × Str)
  index : SearchIndex
deriving DecidableEq

/-- Build the index over a loaded dictionary (`_ensure_indexes` state). -/
def buildEngine (lemmOpt : Option Lemmatizer) (dict : List (Str × Str)) :
    Except EngineError Engine :=
  (build_search_indexes lemmOpt dict).map (fun idx => ⟨dict, idx⟩)

/-- Total variant of `buildEngine` used for concrete test engines; the
claims' theorems separately certify that the build in fact succeeded. -/
def engineFor (lemmOpt : Option Lemmatizer) (dict : List (Str × Str)) : Engine :=
  ⟨dict, ((build_search_indexes lemmOpt dict).toOption).getD emptySearchIndex⟩

/-- Is position `i` of `t` occupied by a word-constituent character? -/
def wordAt (t : Str) (i : Nat) : Bool :=
  match t.get? i with
  | some c => isWordChar c
  | none => false

/-- `\b` at gap position `i` (before index `i`). -/
def boundaryAt (t : Str) (i : Nat) : Bool :=
  (match i with | 0 => false | j + 1 => wordAt t j) != wordAt t i

/-- Case-insensitive literal match of `f` at position `i`. -/
def litMatchAt (t : Str) (i : Nat) (f : Str) : Bool :=
  decide (toLowerStr ((t.drop i).take f.length) = toLowerStr f)

/-- One alternative of `\b(...)\b` succeeding at position `i`. -/
def patMatchAt (t : Str) (i : Nat) (f : Str) : Bool :=
  boundaryAt t i && litMatchAt t i f && boundaryAt t (i + f.length)

/-- The regex engine tries the alternatives in pattern order. -/
def tryForms (forms : List Str) (t : Str) (i : Nat) : Option Str :=
  forms.find? (patMatchAt t i)

/-- `re.finditer`: left-to-right scan, non-overlapping, resuming after each
match (and advancing one position after an empty match).  Produces
`(start, length)` pairs.  One scan step consumes one unit of fuel; every
step advances the position by at least one, so `t.length + 1` units always
complete the scan from position 0 (fuel irrelevance is proved below). -/
def finditerGo (forms : List Str) (t : Str) : Nat → Nat → List (Nat × Nat)
  | _, 0 => []
  | i, fuel + 1 =>
    if i < t.length then
      match tryForms forms t i with
      | some f => (i, f.length) :: finditerGo forms t (i + max f.length 1) fuel
      | none => finditerGo forms t (i + 1) fuel
    else []

def finditer (forms : List Str) (t : Str) : List (Nat × Nat) :=
  finditerGo forms t 0 (t.length + 1)

/-- `match.group(0)`: the matched text, with its source casing. -/
def matchedSeg (t : Str) (m : Nat × Nat) : Str := (t.drop m.1).take m.2

/-- Python `a or b` on optional strings: an empty string is falsy. -/
def pyOr (a b : Option Str) : Option Str :=
  match a with
  | some s => if s.isEmpty then b else some s
  | none => b

/-- `self._lower_to_original.get(x) or self._lemma_map.get(x)`. -/
def resolveRaw (idx : SearchIndex) (ml : Str) : Option Str :=
  pyOr (dget idx.lower_to_original ml) (dget idx.lemma_map ml)

/-- The `if original_key:` truthiness test applied to the resolution. -/
def resolveKey (idx : SearchIndex) (ml : Str) : Option Str :=
  match resolveRaw idx ml with
  | some s => if s.isEmpty then none else some s
  | none => none

/-- `TranslationEngine.find_terms_in_text`. -/
def find_terms_in_text (e : Engine) (t : Str) : List (Str × Str) :=
  match e.index.regexForms with
  | none => []
  | some forms =>
    if t.isEmpty then []
    else
      (finditer forms t).foldl (fun found m =>
        let ml := toLowerStr (matchedSeg t m)
        match resolveKey e.index ml with
        | some k =>
          if dget found k = none then found ++ [(k, dgetD e.translation_dict k)] else found
        | none => found) []

/-! ### The rewriter -/

/-- A format template: literal text interleaved with the two named slots
`\x7btranslation\x7d` and `\x7boriginal\x7d` (spec §6 template syntax). -/
inductive TItem
  | lit (s : Str)
  | translation
  | original
deriving DecidableEq

abbrev Template := List TItem

/-- `format_template.format(translation=..., original=...)`. -/
def expandTemplate (tmpl : Template) (translation original : Str) : Str :=
  (tmpl.map (fun it =>
    match it with
    | .lit s => s
    | .translation => translation
    | .original => original)).flatten

/-- The match-collection loop of `attach_translations_to_text`: triples
`(start, end, replacement)` in forward scan order; a match whose resolution
is falsy is dropped. -/
def attachReplacements (e : Engine) (forms : List Str) (t : Str) (tmpl : Template) :
    List (Nat × Nat × Str) :=
  (finditer forms t).foldl (fun acc m =>
    let mt := matchedSeg t m
    let ml := toLowerStr mt
    match resolveKey e.index ml with
    | some k => acc ++ [(m.1, m.1 + m.2, expandTemplate tmpl (dgetD e.translation_dict k) mt)]
    | none => acc) []

/-- `result = result[:start] + replacement + result[end:]`, applied over the
reversed replacement list (descending start offsets). -/
def applySplices (t : Str) (rs : List (Nat × Nat × Str)) : Str :=
  rs.reverse.foldl (fun res r => res.take r.1 ++ r.2.2 ++ res.drop r.2.1) t

/-- `TranslationEngine.attach_translations_to_text`. -/
def attach_translations_to_text (e : Engine) (t : Str) (tmpl : Template) : Str :=
  match e.index.regexForms with
  | none => t
  | some forms =>
    if t.isEmpty then t
    else applySplices t (attachReplacements e forms t tmpl)

/-! ### `load_translation_table` -/

inductive LoadError
  /-- `FileNotFoundError`. -/
  | sourceNotFound
  /-- `ValueError` from an unparsable source. -/
  | sourceUnreadable
  /-- `ValueError` for fewer than two columns. -/
  | emptyOrMalformedSource
deriving DecidableEq

/-- `df[[source_col, target_col]].dropna()` followed by the comprehension's
trim-and-drop filter: the retained `(source, target)` rows, in order.  A
`none` field models a NaN cell dropped by `dropna`. -/
def cleanRows (rows : List (Option Str × Option Str)) : List (Str × Str) :=
  rows.filterMap (fun r =>
    match r with
    | (some s, some t) =>
      let s' := strip s
      let t' := strip t
      if s'.isEmpty || t'.isEmpty then none else some (s', t')
    | _ => none)

/-- The dictionary comprehension: a single linear pass building a key-unique
mapping, later duplicate source keys overwriting earlier ones. -/
def dictOfRows (rows : List (Option Str × Option Str)) : List (Str × Str) :=
  (cleanRows rows).foldl (fun m r => dinsert m r.1 r.2) []

/-- `TranslationEngine.load_translation_table`, taking the parse result of
the tabular source: `none` when the source cannot be parsed at all, else
the column count and the first two cells of each row.  Returns the new
dictionary together with the reported count of retained entries. -/
def load_translation_table (parsed : Option (Nat × List (Option Str × Option Str))) :
    Except LoadError (List (Str × Str) × Nat) :=
  match parsed with
  | none => .error .sourceUnreadable
  | some (ncols, rows) =>
    if ncols < 2 then .error .emptyOrMalformedSource
    else .ok (dictOfRows rows, (dictOfRows rows).length)

/-! ### Concrete resolvers, dictionaries, and engines used in the claims -/

/-- A resolver that never inflects: every word is already its base form. -/
def idLemm : Lemmatizer := ⟨fun w _ => w⟩

/-- A resolver for the tests: maps the inflected forms "runs", "ran",
"running" to the base verb "run", all other words to themselves. -/
def runLemm : Lemmatizer :=
  ⟨fun w p =>
    match p with
    | .verb =>
      if w = "runs".data ∨ w = "ran".data ∨ w = "running".data then "run".data else w
    | .noun => w⟩

def fireDict : List (Str × Str) :=
  [("fire".data, "火".data), ("fire ball".data, "火球术".data)]

def fireEngine : Engine := engineFor (some idLemm) fireDict

def orcDict : List (Str × Str) := [("orc".data, "兽人".data)]

def orcEngine : Engine := engineFor (some idLemm) orcDict

def slashTmpl : Template := [.original, .lit "/".data, .translation]

def runsRanDict : List (Str × Str) :=
  [("runs".data, "A".data), ("ran".data, "B".data)]

def runsRanEngine : Engine := engineFor (some runLemm) runsRanDict

/-- Two keys differing only in letter case, the capitalized one first. -/
def caseDict : List (Str × Str) :=
  [("Running".data, "C1".data), ("running".data, "C2".data)]

def caseEngine : Engine := engineFor (some runLemm) caseDict

def runDict : List (Str × Str) := [("run".data, "跑".data)]

instance exceptDecEq {ε α : Type} [DecidableEq ε] [DecidableEq α] :
    DecidableEq (Except ε α)
  | .error e1, .error e2 =>
    if h : e1 = e2 then .isTrue (by rw [h])
    else .isFalse (fun he => h (Except.error.inj he))
  | .error _, .ok _ => .isFalse Except.noConfusion
  | .ok _, .error _ => .isFalse Except.noConfusion
  | .ok a1, .ok a2 =>
    if h : a1 = a2 then .isTrue (by rw [h])
    else .isFalse (fun he => h (Except.ok.inj he))

/-! ### Specification-side definitions used to state the claims -/

/-- The lemma-map loop re-expressed as a plain overwrite-fold over the
`(lemma, key)` pairs it writes; equal to `buildLemmaMap` whenever the
resolver exists (proved below). -/
def lemmaFold (L : Lemmatizer) (lower : List (Str × Str)) (ks : List Str) :
    List (Str × Str) :=
  (lemmaPairs L lower ks).foldl (fun m p => dinsert m p.1 p.2) []

/-- Interleaving characterization of the rewrite: the text up to the next
match start, then the replacement, then the rest rendered from the match
end; used to state that characters outside matched spans are unchanged. -/
def renderFrom (t : Str) (p : Nat) : List (Nat × Nat × Str) → Str
  | [] => t.drop p
  | (s, e, r) :: rs => (t.drop p).take (s - p) ++ r ++ renderFrom t e rs

/-- Total length of the replaced spans. -/
def sumSpans (rs : List (Nat × Nat × Str)) : Nat :=
  (rs.map (fun r => r.2.1 - r.1)).sum

/-- Total length of the replacement strings. -/
def sumRepl (rs : List (Nat × Nat × Str)) : Nat :=
  (rs.map (fun r => r.2.2.length)).sum

/-- The matches `(start, length)` of one scan are in ascending position
order, non-overlapping, within bounds, and all start at or after `i`. -/
inductive SpacedFrom (n : Nat) : Nat → List (Nat × Nat) → Prop
  | nil (i : Nat) : SpacedFrom n i []
  | cons (i s ℓ : Nat) (ms : List (Nat × Nat)) (h1 : i ≤ s) (h2 : s + ℓ ≤ n)
      (h3 : SpacedFrom n (s + max ℓ 1) ms) : SpacedFrom n i ((s, ℓ) :: ms)

/-- The replacement triples `(start, end, repl)` are in ascending span
order, non-overlapping, and within bounds. -/
inductive SplicesOK (n : Nat) : Nat → List (Nat × Nat × Str) → Prop
  | nil (p : Nat) : SplicesOK n p []
  | cons (p s e : Nat) (r : Str) (rs : List (Nat × Nat × Str)) (h1 : p ≤ s)
      (h2 : s ≤ e) (h3 : e ≤ n) (h4 : SplicesOK n e rs) :
      SplicesOK n p ((s, e, r) :: rs)

/-- The surface map the build produces for a dictionary. -/
def builtLower (dict : List (Str × Str)) : List (Str × Str) :=
  buildLower (sortKeysDesc (dkeys dict))

/-- The lemma map the build produces for a dictionary. -/
def builtLemma (L : Lemmatizer) (dict : List (Str × Str)) : List (Str × Str) :=
  lemmaFold L (builtLower dict) (sortKeysDesc (dkeys dict))

/-- The alternation, in order, of the compiled pattern the build produces. -/
def builtForms (L : Lemmatizer) (dict : List (Str × Str)) : List Str :=
  sortKeysDesc (allFormsLower (builtLower dict) (builtLemma L dict))

/-- The whole index the build produces for a non-empty dictionary. -/
def builtIndex (L : Lemmatizer) (dict : List (Str × Str)) : SearchIndex :=
  ⟨some (builtForms L dict), builtLower dict, builtLemma L dict⟩

/-! ## Association-list (Python `dict`) lemmas -/

theorem dget_cons (k' v' : Str) (m : List (Str × Str)) (k : Str) :
    dget ((k', v') :: m) k = if k' = k then some v' else dget m k := by
  simp only [dget, List.find?_cons]
  by_cases h : k' = k <;> simp [h]

theorem dget_dinsert (m : List (Str × Str)) (k v k' : Str) :
    dget (dinsert m k v) k' = if k = k' then some v else dget m k' := by
  induction m with
  | nil =>
    simp only [dinsert, dget_cons]
  | cons p rest ih =>
    obtain ⟨a, b⟩ := p
    by_cases hak : a = k
    · subst hak
      simp only [dinsert, if_pos rfl, dget_cons]
      by_cases h : a = k' <;> simp [h, dget_cons]
    · simp only [dinsert, if_neg hak, dget_cons, ih]
      by_cases h1 : a = k' <;> by_cases h2 : k = k' <;> simp [h1, h2]
      exact (hak (h1.trans h2.symm)).elim

theorem mem_dinsert (m : List (Str × Str)) (k v a b : Str)
    (h : (a, b) ∈ dinsert m k v) : (a, b) = (k, v) ∨ (a, b) ∈ m := by
  induction m with
  | nil => simpa [dinsert] using h
  | cons p rest ih =>
    by_cases hpk : p.1 = k
    · obtain ⟨a', b'⟩ := p
      simp only [dinsert, if_pos hpk] at h
      rcases List.mem_cons.1 h with h | h
      · exact Or.inl h
      · exact Or.inr (List.mem_cons_of_mem _ h)
    · obtain ⟨a', b'⟩ := p
      simp only [dinsert, if_neg hpk] at h
      rcases List.mem_cons.1 h with h | h
      · exact Or.inr (List.mem_cons.2 (Or.inl h))
      · rcases ih h with h | h
        · exact Or.inl h
        · exact Or.inr (List.mem_cons_of_mem _ h)

theorem dkeys_dinsert (m : List (Str × Str)) (k v : Str) :
    dkeys (dinsert m k v) = if k ∈ dkeys m then dkeys m else dkeys m ++ [k] := by
  induction m with
  | nil => simp [dinsert, dkeys]
  | cons p rest ih =>
    obtain ⟨a, b⟩ := p
    by_cases hak : a = k
    · subst hak
      have h1 : dinsert ((a, b) :: rest) a v = (a, v) :: rest := by simp [dinsert]
      have h2 : a ∈ dkeys ((a, b) :: rest) := by simp [dkeys]
      rw [h1, if_pos h2]
      rfl
    · have h1 : dinsert ((a, b) :: rest) k v = (a, b) :: dinsert rest k v := by
        simp [dinsert, hak]
      have h2 : dkeys ((a, b) :: dinsert rest k v) = a :: dkeys (dinsert rest k v) := rfl
      have h3 : dkeys ((a, b) :: rest) = a :: dkeys rest := rfl
      rw [h1, h2, h3, ih]
      have hne : k ≠ a := Ne.symm hak
      by_cases hk : k ∈ dkeys rest
      · rw [if_pos hk, if_pos (by simp [List.mem_cons, hk])]
      · rw [if_neg hk, if_neg (by simp [List.mem_cons, hne, hk]), List.cons_append]

theorem dget_eq_none_iff (m : List (Str × Str)) (k : Str) :
    dget m k = none ↔ k ∉ dkeys m := by
  simp only [dget, Option.map_eq_none', List.find?_eq_none, dkeys, List.mem_map]
  constructor
  · rintro h ⟨p, hp, rfl⟩
    exact (by simpa using h p hp)
  · intro h p hp
    simp only [decide_eq_true_eq]
    intro hpk
    exact h ⟨p, hp, hpk⟩

theorem dget_mem (m : List (Str × Str)) (k v : Str) (h : dget m k = some v) :
    (k, v) ∈ m := by
  simp only [dget, Option.map_eq_some'] at h
  obtain ⟨p, hp, hv⟩ := h
  have h1 := List.mem_of_find?_eq_some hp
  have h2 := List.find?_some hp
  simp only [decide_eq_true_eq] at h2
  obtain ⟨a, b⟩ := p
  simp only at h2 hv
  subst h2
  subst hv
  exact h1

theorem dget_isSome_of_mem_dkeys (m : List (Str × Str)) (k : Str) (h : k ∈ dkeys m) :
    ∃ v, dget m k = some v := by
  cases hg : dget m k with
  | none => exact absurd ((dget_eq_none_iff m k).1 hg) (fun hn => hn h)
  | some v => exact ⟨v, rfl⟩

theorem dget_foldl_dinsert (ps : List (Str × Str)) (m0 : List (Str × Str)) (k : Str) :
    dget (ps.foldl (fun m p => dinsert m p.1 p.2) m0) k =
      ((ps.reverse.find? (fun p => p.1 = k)).map (·.2)).or (dget m0 k) := by
  induction ps generalizing m0 with
  | nil => simp
  | cons p ps ih =>
    rw [List.foldl_cons, ih (dinsert m0 p.1 p.2), dget_dinsert, List.reverse_cons,
      List.find?_append]
    cases hf : ps.reverse.find? (fun p => p.1 = k) with
    | some r => simp
    | none =>
      simp only [Option.map_none', Option.none_or, Option.none_or]
      by_cases h : p.1 = k
      · simp [List.find?_cons, h]
      · simp [List.find?_cons, h]

theorem filter_head?_eq_find? {α : Type} (q : α → Bool) (l : List α) :
    (l.filter q).head? = l.find? q := by
  induction l with
  | nil => rfl
  | cons a l ih =>
    simp only [List.filter_cons, List.find?_cons]
    cases hq : q a
    · simpa using ih
    · simp

theorem filter_getLast?_eq_find?_reverse {α : Type} (q : α → Bool) (l : List α) :
    (l.filter q).getLast? = l.reverse.find? q := by
  rw [List.getLast?_eq_head?_reverse, ← List.filter_reverse, filter_head?_eq_find?]

/-! ## Sorting lemmas -/

theorem mem_sortKeysDesc (l : List Str) (x : Str) : x ∈ sortKeysDesc l ↔ x ∈ l :=
  (List.perm_insertionSort lenGE l).mem_iff

theorem sorted_sortKeysDesc (l : List Str) : List.Sorted lenGE (sortKeysDesc l) :=
  List.sorted_insertionSort lenGE l

theorem filter_orderedInsert_pos (p : Str → Bool) (a : Str) (l : List Str)
    (hp : ∀ b, p b = true → b.length = a.length) (hpa : p a = true) :
    (List.orderedInsert lenGE a l).filter p = a :: l.filter p := by
  induction l with
  | nil => simp [List.orderedInsert, List.filter_cons, hpa]
  | cons b l ih =>
    simp only [List.orderedInsert]
    by_cases hab : lenGE a b
    · simp [if_pos hab, List.filter_cons, hpa]
    · have hpb : p b = false := by
        cases hq : p b
        · rfl
        · exact absurd (le_of_eq (hp b hq)) hab
      simp [if_neg hab, List.filter_cons, hpb, ih]

theorem filter_orderedInsert_neg (p : Str → Bool) (a : Str) (l : List Str)
    (hpa : p a = false) :
    (List.orderedInsert lenGE a l).filter p = l.filter p := by
  induction l with
  | nil => simp [List.orderedInsert, List.filter_cons, hpa]
  | cons b l ih =>
    simp only [List.orderedInsert]
    by_cases hab : lenGE a b
    · simp [if_pos hab, List.filter_cons, hpa]
    · simp [if_neg hab, List.filter_cons, ih]

theorem filter_sortKeysDesc (p : Str → Bool) (l : List Str)
    (hp : ∀ b c, p b = true → p c = true → b.length = c.length) :
    (sortKeysDesc l).filter p = l.filter p := by
  induction l with
  | nil => rfl
  | cons a l ih =>
    simp only [sortKeysDesc, List.insertionSort] at ih ⊢
    cases hpa : p a
    · rw [filter_orderedInsert_neg p a _ hpa, ih]
      simp [List.filter_cons, hpa]
    · rw [filter_orderedInsert_pos p a _ (fun b hb => hp b a hb hpa) hpa, ih]
      simp [List.filter_cons, hpa]

/-! ## Chunking lemmas -/

theorem flatten_chunkGo (maxLen : Nat) (ts : List Str) :
    ∀ (buf : List Str) (cur : Nat), (chunkGo maxLen ts buf cur).flatten = buf ++ ts := by
  induction ts with
  | nil =>
    intro buf cur
    by_cases h : buf.isEmpty
    · simp [chunkGo, h, List.isEmpty_iff.1 h]
    · simp [chunkGo, h]
  | cons t ts ih =>
    intro buf cur
    simp only [chunkGo]
    by_cases h : cur + t.length + 1 > maxLen
    · simp [if_pos h, ih]
    · simp [if_neg h, ih]

theorem flatten_chunkTerms (maxLen : Nat) (ts : List Str) :
    (chunkTerms maxLen ts).flatten = ts :=
  flatten_chunkGo maxLen ts [] 0

/-! ## Case-folding lemmas -/

theorem toLower_toLower (c : Char) : c.toLower.toLower = c.toLower := by
  unfold Char.toLower
  by_cases h : c.toNat ≥ 65 ∧ c.toNat ≤ 90
  · rw [if_pos h]
    obtain ⟨h1, h2⟩ := h
    generalize c.toNat = n at h1 h2
    interval_cases n <;> decide
  · rw [if_neg h, if_neg h]

theorem toLowerStr_idem (s : Str) : toLowerStr (toLowerStr s) = toLowerStr s := by
  simp only [toLowerStr, List.map_map]
  exact List.map_congr_left (fun c _ => toLower_toLower c)

theorem length_toLowerStr (s : Str) : (toLowerStr s).length = s.length :=
  List.length_map s Char.toLower

/-! ## Build-phase characterization lemmas -/

theorem foldlM_of_pure_steps {α β : Type} (f : β → α → Except EngineError β)
    (g : β → α → β) (hfg : ∀ b a, f b a = pure (g b a)) (l : List α) (b0 : β) :
    l.foldlM f b0 = .ok (l.foldl g b0) := by
  induction l generalizing b0 with
  | nil => rfl
  | cons a l ih =>
    rw [List.foldlM_cons, hfg b0 a, pure_bind, ih (g b0 a), List.foldl_cons]

theorem foldl_filterMap {α β γ : Type} (f : α → Option β) (g : γ → β → γ)
    (l : List α) (b0 : γ) :
    (l.filterMap f).foldl g b0 =
      l.foldl (fun b a => match f a with | some c => g b c | none => b) b0 := by
  induction l generalizing b0 with
  | nil => rfl
  | cons a l ih =>
    rw [List.filterMap_cons]
    cases hf : f a with
    | none => rw [List.foldl_cons, hf, ih]
    | some c => rw [List.foldl_cons, List.foldl_cons, hf, ih]

theorem buildLemmaMap_some_eq (L : Lemmatizer) (lower : List (Str × Str))
    (ks : List Str) : buildLemmaMap (some L) lower ks = .ok (lemmaFold L lower ks) := by
  unfold buildLemmaMap
  rw [foldlM_of_pure_steps _
    (fun m k =>
      match lemmaPairFn L lower k with
      | some c => dinsert m c.1 c.2
      | none => m)
    (by
      intro b a
      dsimp only
      unfold lemmaPairFn
      by_cases h1 : ' ' ∈ toLowerStr a
      · rw [if_pos h1, if_pos h1]
      · rw [if_neg h1, if_neg h1]
        rw [show lemmatize_word (some L) (toLowerStr a) =
          (pure (wordLemma L (toLowerStr a)) : Except EngineError Str) from rfl, pure_bind]
        by_cases h2 : wordLemma L (toLowerStr a) ≠ toLowerStr a ∧
            dget lower (wordLemma L (toLowerStr a)) = none
        · rw [if_pos h2, if_pos h2]
        · rw [if_neg h2, if_neg h2])]
  unfold lemmaFold lemmaPairs
  rw [foldl_filterMap]
  refine congrArg Except.ok (congrFun (congrFun (congrArg List.foldl ?_) []) ks)
  funext m k
  cases lemmaPairFn L lower k <;> rfl

theorem buildLower_eq (ks : List Str) :
    buildLower ks = (ks.map (fun k => (toLowerStr k, k))).foldl
      (fun m p => dinsert m p.1 p.2) [] := by
  unfold buildLower
  rw [List.foldl_map]

theorem dget_buildLower (ks : List Str) (x : Str) :
    dget (buildLower ks) x = ks.reverse.find? (fun k => toLowerStr k = x) := by
  rw [buildLower_eq, dget_foldl_dinsert, show dget [] x = none from rfl, Option.or_none,
    ← List.map_reverse]
  generalize ks.reverse = l
  induction l with
  | nil => rfl
  | cons k l ih =>
    dsimp only [List.map_cons]
    rw [List.find?_cons, List.find?_cons]
    by_cases h : toLowerStr k = x
    · have h1 : (decide ((toLowerStr k, k).1 = x)) = true := by simp [h]
      rw [h1]
      rfl
    · have h1 : (decide ((toLowerStr k, k).1 = x)) = false := by simp [h]
      rw [h1]
      exact ih

theorem dget_lemmaFold (L : Lemmatizer) (lower : List (Str × Str)) (ks : List Str)
    (x : Str) :
    dget (lemmaFold L lower ks) x =
      ((lemmaPairs L lower ks).reverse.find? (fun p => p.1 = x)).map (·.2) := by
  unfold lemmaFold
  rw [dget_foldl_dinsert, show dget [] x = none from rfl, Option.or_none]

theorem dinsert_ne_nil (m : List (Str × Str)) (k v : Str) : dinsert m k v ≠ [] := by
  cases m with
  | nil => simp [dinsert]
  | cons p rest =>
    obtain ⟨a, b⟩ := p
    by_cases h : a = k <;> simp [dinsert, h]

theorem foldl_dinsert_ne_nil (ps : List (Str × Str)) (m0 : List (Str × Str))
    (h : m0 ≠ []) : ps.foldl (fun m p => dinsert m p.1 p.2) m0 ≠ [] := by
  induction ps generalizing m0 with
  | nil => exact h
  | cons p ps ih => exact ih _ (dinsert_ne_nil _ _ _)

theorem buildLower_ne_nil (ks : List Str) (h : ks ≠ []) : buildLower ks ≠ [] := by
  cases ks with
  | nil => exact absurd rfl h
  | cons k ks =>
    rw [buildLower_eq, List.map_cons, List.foldl_cons]
    exact foldl_dinsert_ne_nil _ _ (dinsert_ne_nil _ _ _)

theorem sortKeysDesc_ne_nil (l : List Str) (h : l ≠ []) : sortKeysDesc l ≠ [] := by
  intro hs
  have hlen := (List.perm_insertionSort lenGE l).length_eq
  rw [show List.insertionSort lenGE l = sortKeysDesc l from rfl, hs] at hlen
  exact h (List.eq_nil_of_length_eq_zero hlen.symm)

theorem build_some_eq (L : Lemmatizer) (dict : List (Str × Str)) (h : dict ≠ []) :
    build_search_indexes (some L) dict = .ok (builtIndex L dict) := by
  unfold build_search_indexes
  rw [if_neg (by simpa using h)]
  show (buildLemmaMap (some L) (buildLower (sortKeysDesc (dkeys dict)))
      (sortKeysDesc (dkeys dict)) >>= _) = _
  rw [buildLemmaMap_some_eq, show (Except.ok (lemmaFold L (buildLower
    (sortKeysDesc (dkeys dict))) (sortKeysDesc (dkeys dict))) :
    Except EngineError (List (Str × Str))) = pure (lemmaFold L (buildLower
    (sortKeysDesc (dkeys dict))) (sortKeysDesc (dkeys dict))) from rfl, pure_bind]
  have hne : ¬ (sortKeysDesc (allFormsLower (buildLower (sortKeysDesc (dkeys dict)))
      (lemmaFold L (buildLower (sortKeysDesc (dkeys dict)))
        (sortKeysDesc (dkeys dict))))).isEmpty := by
    rw [List.isEmpty_iff]
    apply sortKeysDesc_ne_nil
    unfold allFormsLower
    have h1 : dkeys dict ≠ [] := by
      cases dict with
      | nil => exact absurd rfl h
      | cons p rest => simp [dkeys]
    have h2 : buildLower (sortKeysDesc (dkeys dict)) ≠ [] :=
      buildLower_ne_nil _ (sortKeysDesc_ne_nil _ h1)
    intro hx
    rcases List.append_eq_nil.1 hx with ⟨hl, _⟩
    exact h2 (by cases hb : buildLower (sortKeysDesc (dkeys dict)) with
      | nil => rfl
      | cons q rest => rw [hb] at hl; exact absurd hl (by simp [dkeys]))
  rw [if_neg hne]
  unfold builtIndex builtForms builtLemma builtLower
  rw [flatten_chunkTerms]
  rfl

theorem buildEngine_some_eq (L : Lemmatizer) (dict : List (Str × Str)) (h : dict ≠ []) :
    buildEngine (some L) dict = .ok ⟨dict, builtIndex L dict⟩ := by
  unfold buildEngine
  rw [build_some_eq L dict h]
  rfl

theorem buildEngine_some_inv (L : Lemmatizer) (dict : List (Str × Str)) (e : Engine)
    (h : buildEngine (some L) dict = .ok e) :
    e.translation_dict = dict ∧
      e.index = if dict = [] then emptySearchIndex else builtIndex L dict := by
  by_cases hd : dict = []
  · subst hd
    have : buildEngine (some L) [] = .ok ⟨[], emptySearchIndex⟩ := rfl
    rw [this] at h
    cases h
    exact ⟨rfl, by rw [if_pos rfl]⟩
  · rw [buildEngine_some_eq L dict hd] at h
    cases h
    exact ⟨rfl, by rw [if_neg hd]⟩

/-! ## Membership and key-uniqueness invariants of the built maps -/

theorem mem_foldl_dinsert (ps : List (Str × Str)) (m0 : List (Str × Str)) (a b : Str)
    (h : (a, b) ∈ ps.foldl (fun m p => dinsert m p.1 p.2) m0) :
    (a, b) ∈ ps ∨ (a, b) ∈ m0 := by
  induction ps generalizing m0 with
  | nil => exact Or.inr h
  | cons p ps ih =>
    rcases ih (dinsert m0 p.1 p.2) h with h1 | h1
    · exact Or.inl (List.mem_cons_of_mem _ h1)
    · rcases mem_dinsert _ _ _ _ _ h1 with h2 | h2
      · refine Or.inl ?_
        rw [h2, Prod.mk.eta]
        exact List.mem_cons_self _ _
      · exact Or.inr h2

theorem buildLower_mem (ks : List Str) (x v : Str) (h : (x, v) ∈ buildLower ks) :
    v ∈ ks ∧ x = toLowerStr v := by
  rw [buildLower_eq] at h
  rcases mem_foldl_dinsert _ _ _ _ h with h1 | h1
  · rw [List.mem_map] at h1
    obtain ⟨k, hk, he⟩ := h1
    obtain ⟨he1, he2⟩ := Prod.mk.injEq .. ▸ he
    subst he2
    exact ⟨hk, he1.symm⟩
  · cases h1

theorem lemmaPairFn_some_inv (L : Lemmatizer) (lower : List (Str × Str)) (k l v : Str)
    (h : lemmaPairFn L lower k = some (l, v)) :
    v = k ∧ l = wordLemma L (toLowerStr k) ∧ ' ' ∉ toLowerStr k ∧
      l ≠ toLowerStr k ∧ dget lower l = none := by
  unfold lemmaPairFn at h
  by_cases h1 : ' ' ∈ toLowerStr k
  · rw [if_pos h1] at h
    cases h
  · rw [if_neg h1] at h
    by_cases h2 : wordLemma L (toLowerStr k) ≠ toLowerStr k ∧
        dget lower (wordLemma L (toLowerStr k)) = none
    · rw [if_pos h2] at h
      obtain ⟨he1, he2⟩ := Prod.mk.injEq .. ▸ (Option.some_inj.1 h)
      subst he1
      subst he2
      exact ⟨rfl, rfl, h1, h2.1, h2.2⟩
    · rw [if_neg h2] at h
      cases h

theorem mem_lemmaPairs (L : Lemmatizer) (lower : List (Str × Str)) (ks : List Str)
    (l v : Str) (h : (l, v) ∈ lemmaPairs L lower ks) :
    v ∈ ks ∧ l = wordLemma L (toLowerStr v) ∧ ' ' ∉ toLowerStr v ∧
      l ≠ toLowerStr v ∧ dget lower l = none := by
  unfold lemmaPairs at h
  rw [List.mem_filterMap] at h
  obtain ⟨k, hk, hf⟩ := h
  obtain ⟨hv, hrest⟩ := lemmaPairFn_some_inv L lower k l v hf
  subst hv
  exact ⟨hk, hrest⟩

theorem lemmaFold_mem (L : Lemmatizer) (lower : List (Str × Str)) (ks : List Str)
    (x v : Str) (h : (x, v) ∈ lemmaFold L lower ks) : (x, v) ∈ lemmaPairs L lower ks := by
  unfold lemmaFold at h
  rcases mem_foldl_dinsert _ _ _ _ h with h1 | h1
  · exact h1
  · cases h1

theorem nodup_dkeys_dinsert (m : List (Str × Str)) (k v : Str)
    (h : (dkeys m).Nodup) : (dkeys (dinsert m k v)).Nodup := by
  rw [dkeys_dinsert]
  by_cases hk : k ∈ dkeys m
  · rw [if_pos hk]
    exact h
  · rw [if_neg hk]
    rw [List.nodup_append]
    exact ⟨h, List.nodup_singleton k, by
      intro a ha hb
      rw [List.mem_singleton] at hb
      subst hb
      exact hk ha⟩

theorem nodup_dkeys_foldl_dinsert (ps : List (Str × Str)) (m0 : List (Str × Str))
    (h : (dkeys m0).Nodup) :
    (dkeys (ps.foldl (fun m p => dinsert m p.1 p.2) m0)).Nodup := by
  induction ps generalizing m0 with
  | nil => exact h
  | cons p ps ih => exact ih _ (nodup_dkeys_dinsert _ _ _ h)

theorem mem_allFormsLower (lower lm : List (Str × Str)) (x : Str) :
    x ∈ allFormsLower lower lm ↔ x ∈ dkeys lower ∨ x ∈ dkeys lm := by
  unfold allFormsLower
  rw [List.mem_append, List.mem_filter]
  constructor
  · rintro (h | ⟨h, _⟩)
    · exact Or.inl h
    · exact Or.inr h
  · rintro (h | h)
    · exact Or.inl h
    · by_cases hl : x ∈ dkeys lower
      · exact Or.inl hl
      · exact Or.inr ⟨h, by simpa using hl⟩

/-! ## Resolution lemmas -/

theorem pyOr_none (b : Option Str) : pyOr none b = b := rfl

theorem pyOr_some (s : Str) (b : Option Str) :
    pyOr (some s) b = if s.isEmpty then b else some s := rfl

theorem resolveRaw_eq (idx : SearchIndex) (ml : Str) :
    resolveRaw idx ml = pyOr (dget idx.lower_to_original ml) (dget idx.lemma_map ml) := rfl

theorem resolveKey_of_raw_none (idx : SearchIndex) (ml : Str)
    (h : resolveRaw idx ml = none) : resolveKey idx ml = none := by
  unfold resolveKey
  rw [h]

theorem resolveKey_of_raw_some (idx : SearchIndex) (ml s : Str)
    (h : resolveRaw idx ml = some s) :
    resolveKey idx ml = if s.isEmpty then none else some s := by
  unfold resolveKey
  rw [h]

theorem resolveKey_some_inv (idx : SearchIndex) (ml k : Str)
    (h : resolveKey idx ml = some k) :
    k ≠ [] ∧ (dget idx.lower_to_original ml = some k ∨ dget idx.lemma_map ml = some k) := by
  cases hl : dget idx.lower_to_original ml with
  | none =>
    cases hm : dget idx.lemma_map ml with
    | none =>
      rw [resolveKey_of_raw_none idx ml (by rw [resolveRaw_eq, hl, hm, pyOr_none])] at h
      cases h
    | some s =>
      rw [resolveKey_of_raw_some idx ml s (by rw [resolveRaw_eq, hl, hm, pyOr_none])] at h
      by_cases hs : s.isEmpty
      · rw [if_pos hs] at h; cases h
      · rw [if_neg hs] at h
        cases h
        exact ⟨by simpa [List.isEmpty_iff] using hs, Or.inr rfl⟩
  | some s =>
    by_cases hs : s.isEmpty
    · cases hm : dget idx.lemma_map ml with
      | none =>
        rw [resolveKey_of_raw_none idx ml
          (by rw [resolveRaw_eq, hl, hm, pyOr_some, if_pos hs])] at h
        cases h
      | some s' =>
        rw [resolveKey_of_raw_some idx ml s'
          (by rw [resolveRaw_eq, hl, hm, pyOr_some, if_pos hs])] at h
        by_cases hs' : s'.isEmpty
        · rw [if_pos hs'] at h; cases h
        · rw [if_neg hs'] at h
          cases h
          exact ⟨by simpa [List.isEmpty_iff] using hs', Or.inr rfl⟩
    · rw [resolveKey_of_raw_some idx ml s
        (by rw [resolveRaw_eq, hl, pyOr_some, if_neg hs]), if_neg hs] at h
      cases h
      exact ⟨by simpa [List.isEmpty_iff] using hs, Or.inl rfl⟩

theorem resolveKey_cases (idx : SearchIndex) (ml k : Str)
    (hsv : ∀ x v, dget idx.lower_to_original x = some v → v ≠ [])
    (h : resolveKey idx ml = some k) :
    dget idx.lower_to_original ml = some k ∨
      (dget idx.lower_to_original ml = none ∧ dget idx.lemma_map ml = some k) := by
  cases hl : dget idx.lower_to_original ml with
  | none =>
    obtain ⟨_, hor⟩ := resolveKey_some_inv idx ml k h
    rcases hor with h1 | h1
    · rw [hl] at h1; cases h1
    · exact Or.inr ⟨rfl, h1⟩
  | some s =>
    have hne : ¬ s.isEmpty = true := by
      rw [List.isEmpty_iff]
      exact hsv ml s hl
    rw [resolveKey_of_raw_some idx ml s
      (by rw [resolveRaw_eq, hl, pyOr_some, if_neg hne]), if_neg hne] at h
    cases h
    exact Or.inl rfl

/-! ## Scan (finditer) lemmas -/

theorem litMatchAt_le (t : Str) (i : Nat) (f : Str) (hi : i ≤ t.length)
    (h : litMatchAt t i f = true) : i + f.length ≤ t.length := by
  unfold litMatchAt at h
  rw [decide_eq_true_iff] at h
  have hlen := congrArg List.length h
  simp only [toLowerStr, List.length_map, List.length_take, List.length_drop] at hlen
  omega

theorem patMatchAt_parts (t : Str) (i : Nat) (f : Str) (h : patMatchAt t i f = true) :
    boundaryAt t i = true ∧ litMatchAt t i f = true ∧
      boundaryAt t (i + f.length) = true := by
  unfold patMatchAt at h
  simp only [Bool.and_eq_true] at h
  exact ⟨h.1.1, h.1.2, h.2⟩

theorem tryForms_some_of_find (forms : List Str) (t : Str) (i : Nat) (f : Str)
    (h : tryForms forms t i = some f) : f ∈ forms ∧ patMatchAt t i f = true :=
  ⟨List.mem_of_find?_eq_some h, List.find?_some h⟩

theorem tryForms_some_le (forms : List Str) (t : Str) (i : Nat) (f : Str)
    (hi : i ≤ t.length) (h : tryForms forms t i = some f) : i + f.length ≤ t.length :=
  litMatchAt_le t i f hi (patMatchAt_parts t i f (tryForms_some_of_find forms t i f h).2).2.1

theorem finditerGo_fuel_irrel (forms : List Str) (t : Str) :
    ∀ (fuel1 fuel2 i : Nat), t.length < i + fuel1 → t.length < i + fuel2 →
      finditerGo forms t i fuel1 = finditerGo forms t i fuel2 := by
  intro fuel1
  induction fuel1 with
  | zero =>
    intro fuel2 i h1 h2
    cases fuel2 with
    | zero => rfl
    | succ fuel2 =>
      show finditerGo forms t i 0 = if i < t.length then _ else []
      rw [if_neg (by omega)]
      rfl
  | succ fuel1 ih =>
    intro fuel2 i h1 h2
    cases fuel2 with
    | zero =>
      show (if i < t.length then _ else []) = finditerGo forms t i 0
      rw [if_neg (by omega)]
      rfl
    | succ fuel2 =>
      show (if i < t.length then _ else []) = if i < t.length then _ else []
      by_cases hi : i < t.length
      · rw [if_pos hi, if_pos hi]
        cases htry : tryForms forms t i with
        | some f =>
          dsimp only
          rw [ih fuel2 (i + max f.length 1) (by omega) (by omega)]
        | none =>
          dsimp only
          exact ih fuel2 (i + 1) (by omega) (by omega)
      · rw [if_neg hi, if_neg hi]

theorem finditerGo_mem (forms : List Str) (t : Str) :
    ∀ (fuel i : Nat), ∀ m ∈ finditerGo forms t i fuel,
      i ≤ m.1 ∧ m.1 < t.length ∧
        ∃ f, tryForms forms t m.1 = some f ∧ f.length = m.2 := by
  intro fuel
  induction fuel with
  | zero =>
    intro i m hm
    cases hm
  | succ fuel ih =>
    intro i m hm
    rw [show finditerGo forms t i (fuel + 1) =
      if i < t.length then
        (match tryForms forms t i with
        | some f => (i, f.length) :: finditerGo forms t (i + max f.length 1) fuel
        | none => finditerGo forms t (i + 1) fuel)
      else [] from rfl] at hm
    by_cases hi : i < t.length
    · rw [if_pos hi] at hm
      cases htry : tryForms forms t i with
      | some f =>
        rw [htry] at hm
        dsimp only at hm
        rcases List.mem_cons.1 hm with h | h
        · subst h
          exact ⟨le_refl _, hi, f, htry, rfl⟩
        · obtain ⟨h1, h2, h3⟩ := ih _ m h
          refine ⟨?_, h2, h3⟩
          have : i ≤ i + max f.length 1 := Nat.le_add_right _ _
          omega
      | none =>
        rw [htry] at hm
        dsimp only at hm
        obtain ⟨h1, h2, h3⟩ := ih _ m hm
        exact ⟨by omega, h2, h3⟩
    · rw [if_neg hi] at hm
      cases hm

theorem finditer_mem (forms : List Str) (t : Str) :
    ∀ m ∈ finditer forms t,
      m.1 < t.length ∧ ∃ f, tryForms forms t m.1 = some f ∧ f.length = m.2 := by
  intro m hm
  obtain ⟨_, h2, h3⟩ := finditerGo_mem forms t (t.length + 1) 0 m hm
  exact ⟨h2, h3⟩

theorem spacedFrom_weaken (n i j : Nat) (ms : List (Nat × Nat))
    (h : SpacedFrom n i ms) (hj : j ≤ i) : SpacedFrom n j ms := by
  cases h with
  | nil => exact .nil j
  | cons i s ℓ ms h1 h2 h3 => exact .cons j s ℓ ms (le_trans hj h1) h2 h3

theorem finditerGo_spaced (forms : List Str) (t : Str) :
    ∀ (fuel i : Nat), SpacedFrom t.length i (finditerGo forms t i fuel) := by
  intro fuel
  induction fuel with
  | zero =>
    intro i
    exact .nil i
  | succ fuel ih =>
    intro i
    rw [show finditerGo forms t i (fuel + 1) =
      if i < t.length then
        (match tryForms forms t i with
        | some f => (i, f.length) :: finditerGo forms t (i + max f.length 1) fuel
        | none => finditerGo forms t (i + 1) fuel)
      else [] from rfl]
    by_cases hi : i < t.length
    · rw [if_pos hi]
      cases htry : tryForms forms t i with
      | some f =>
        exact .cons i i f.length _ (le_refl i)
          (tryForms_some_le forms t i f (le_of_lt hi) htry) (ih _)
      | none =>
        exact spacedFrom_weaken _ _ _ _ (ih (i + 1)) (by omega)
    · rw [if_neg hi]
      exact .nil i

theorem finditer_spaced (forms : List Str) (t : Str) :
    SpacedFrom t.length 0 (finditer forms t) :=
  finditerGo_spaced forms t (t.length + 1) 0

/-! ## Splicing lemmas: reverse-order splicing equals gap interleaving -/

theorem splicesOK_weaken (n p q : Nat) (rs : List (Nat × Nat × Str))
    (h : SplicesOK n p rs) (hq : q ≤ p) : SplicesOK n q rs := by
  cases h with
  | nil => exact .nil q
  | cons p s e r rs h1 h2 h3 h4 => exact .cons q s e r rs (le_trans hq h1) h2 h3 h4

theorem splicesOK_filterMap (n : Nat) (g : (Nat × Nat) → Option (Nat × Nat × Str))
    (hg : ∀ m r, g m = some r → r.1 = m.1 ∧ r.2.1 = m.1 + m.2)
    (i : Nat) (ms : List (Nat × Nat)) (h : SpacedFrom n i ms) :
    SplicesOK n i (ms.filterMap g) := by
  induction h with
  | nil i => exact .nil i
  | cons i s ℓ ms h1 h2 h3 ih =>
    rw [List.filterMap_cons]
    cases hgm : g (s, ℓ) with
    | none => exact splicesOK_weaken _ _ _ _ ih (by omega)
    | some r =>
      obtain ⟨rs1, rs2, rrep⟩ := r
      obtain ⟨he1, he2⟩ := hg (s, ℓ) (rs1, rs2, rrep) hgm
      simp only at he1 he2
      exact .cons i rs1 rs2 rrep _ (by omega) (by omega) (by omega)
        (splicesOK_weaken _ _ _ _ ih (by omega))

theorem applySplices_nil (t : Str) : applySplices t [] = t := rfl

theorem applySplices_cons (t : Str) (r : Nat × Nat × Str) (rs : List (Nat × Nat × Str)) :
    applySplices t (r :: rs) =
      (applySplices t rs).take r.1 ++ r.2.2 ++ (applySplices t rs).drop r.2.1 := by
  unfold applySplices
  rw [List.reverse_cons, List.foldl_append]
  rfl

theorem applySplices_render (t : Str) (rs : List (Nat × Nat × Str)) (p : Nat)
    (h : SplicesOK t.length p rs) :
    applySplices t rs = t.take p ++ renderFrom t p rs := by
  induction rs generalizing p with
  | nil =>
    rw [applySplices_nil]
    unfold renderFrom
    rw [List.take_append_drop]
  | cons r rs ih =>
    obtain ⟨s, e, rep⟩ := r
    cases h with
    | cons p s e rep rs h1 h2 h3 h4 =>
    rw [applySplices_cons, ih e h4]
    have hlen : (t.take e).length = e := by
      rw [List.length_take]
      omega
    have htake : (t.take e ++ renderFrom t e rs).take s = t.take s := by
      rw [List.take_append_eq_append_take, hlen, List.take_take,
        Nat.sub_eq_zero_of_le h2, List.take_zero, List.append_nil,
        Nat.min_eq_left h2]
    have hdrop : (t.take e ++ renderFrom t e rs).drop e = renderFrom t e rs := by
      rw [List.drop_append_eq_append_drop, hlen,
        List.drop_of_length_le (le_of_eq hlen), Nat.sub_self, List.drop_zero,
        List.nil_append]
    rw [htake, hdrop]
    show t.take s ++ rep ++ renderFrom t e rs =
      t.take p ++ ((t.drop p).take (s - p) ++ rep ++ renderFrom t e rs)
    have hs : t.take s = t.take p ++ (t.drop p).take (s - p) := by
      rw [← List.take_add, Nat.add_sub_cancel' h1]
    rw [hs]
    simp [List.append_assoc]

theorem renderFrom_length (t : Str) (rs : List (Nat × Nat × Str)) (p : Nat)
    (h : SplicesOK t.length p rs) (hp : p ≤ t.length) :
    (renderFrom t p rs).length + sumSpans rs = (t.length - p) + sumRepl rs := by
  induction rs generalizing p with
  | nil =>
    unfold renderFrom sumSpans sumRepl
    simp
  | cons r rs ih =>
    cases h with
    | cons p s e rep rs h1 h2 h3 h4 =>
    have hrec := ih e h4 h3
    unfold sumSpans sumRepl at hrec
    rw [show renderFrom t p ((s, e, rep) :: rs) =
      (t.drop p).take (s - p) ++ rep ++ renderFrom t e rs from rfl]
    unfold sumSpans sumRepl
    simp only [List.length_append, List.length_take, List.length_drop,
      List.map_cons, List.sum_cons]
    omega

/-! ## Loop characterizations of the matcher and rewriter -/

theorem attachRepl_loop (e : Engine) (t : Str) (tmpl : Template)
    (ms : List (Nat × Nat)) :
    ∀ acc, ms.foldl (fun acc m =>
      match resolveKey e.index (toLowerStr (matchedSeg t m)) with
      | some k =>
        acc ++ [(m.1, m.1 + m.2, expandTemplate tmpl (dgetD e.translation_dict k)
          (matchedSeg t m))]
      | none => acc) acc =
      acc ++ ms.filterMap (fun m =>
        (resolveKey e.index (toLowerStr (matchedSeg t m))).map (fun k =>
          (m.1, m.1 + m.2, expandTemplate tmpl (dgetD e.translation_dict k)
            (matchedSeg t m)))) := by
  induction ms with
  | nil =>
    intro acc
    simp
  | cons m ms ih =>
    intro acc
    rw [List.foldl_cons, List.filterMap_cons]
    cases hr : resolveKey e.index (toLowerStr (matchedSeg t m)) with
    | none =>
      simp only [hr, Option.map_none']
      exact ih acc
    | some k =>
      simp only [hr, Option.map_some']
      rw [ih (acc ++ [(m.1, m.1 + m.2, expandTemplate tmpl
        (dgetD e.translation_dict k) (matchedSeg t m))]), List.append_assoc]
      rfl

theorem attachReplacements_eq (e : Engine) (forms : List Str) (t : Str)
    (tmpl : Template) :
    attachReplacements e forms t tmpl = (finditer forms t).filterMap (fun m =>
      (resolveKey e.index (toLowerStr (matchedSeg t m))).map (fun k =>
        (m.1, m.1 + m.2, expandTemplate tmpl (dgetD e.translation_dict k)
          (matchedSeg t m)))) := by
  have h := attachRepl_loop e t tmpl (finditer forms t) []
  rw [List.nil_append] at h
  exact h

theorem find_loop_invariant (e : Engine) (t : Str) (ms : List (Nat × Nat))
    (P : List (Str × Str) → Prop)
    (hstep : ∀ found m k, resolveKey e.index (toLowerStr (matchedSeg t m)) = some k →
      dget found k = none → P found → P (found ++ [(k, dgetD e.translation_dict k)])) :
    ∀ acc, P acc → P (ms.foldl (fun found m =>
      match resolveKey e.index (toLowerStr (matchedSeg t m)) with
      | some k =>
        if dget found k = none then found ++ [(k, dgetD e.translation_dict k)] else found
      | none => found) acc) := by
  induction ms with
  | nil => intro acc h; exact h
  | cons m ms ih =>
    intro acc h
    rw [List.foldl_cons]
    cases hr : resolveKey e.index (toLowerStr (matchedSeg t m)) with
    | none =>
      simp only [hr]
      exact ih acc h
    | some k =>
      simp only [hr]
      by_cases hd : dget acc k = none
      · rw [if_pos hd]
        exact ih _ (hstep acc m k hr hd h)
      · rw [if_neg hd]
        exact ih acc h

theorem find_terms_eq_loop (e : Engine) (forms : List Str) (t : Str)
    (hr : e.index.regexForms = some forms) (ht : ¬ t.isEmpty) :
    find_terms_in_text e t = (finditer forms t).foldl (fun found m =>
      match resolveKey e.index (toLowerStr (matchedSeg t m)) with
      | some k =>
        if dget found k = none then found ++ [(k, dgetD e.translation_dict k)] else found
      | none => found) [] := by
  unfold find_terms_in_text
  rw [hr]
  dsimp only
  rw [if_neg ht]

theorem attach_eq_splices (e : Engine) (forms : List Str) (t : Str) (tmpl : Template)
    (hr : e.index.regexForms = some forms) (ht : ¬ t.isEmpty) :
    attach_translations_to_text e t tmpl = applySplices t (attachReplacements e forms t tmpl) := by
  unfold attach_translations_to_text
  rw [hr]
  dsimp only
  rw [if_neg ht]

/-! ## Facts about the built engine -/

theorem mem_dkeys_iff (m : List (Str × Str)) (x : Str) :
    x ∈ dkeys m ↔ ∃ v, (x, v) ∈ m := by
  unfold dkeys
  rw [List.mem_map]
  constructor
  · rintro ⟨p, hp, he⟩
    exact ⟨p.2, by rw [← he, Prod.mk.eta]; exact hp⟩
  · rintro ⟨v, hv⟩
    exact ⟨(x, v), hv, rfl⟩

theorem builtLower_val (L : Lemmatizer) (dict : List (Str × Str)) (x v : Str)
    (h : dget (builtLower dict) x = some v) :
    v ∈ dkeys dict ∧ x = toLowerStr v := by
  have hm := dget_mem _ _ _ h
  obtain ⟨h1, h2⟩ := buildLower_mem _ _ _ hm
  exact ⟨(mem_sortKeysDesc _ _).1 h1, h2⟩

theorem builtLemma_val (L : Lemmatizer) (dict : List (Str × Str)) (x v : Str)
    (h : dget (builtLemma L dict) x = some v) :
    v ∈ dkeys dict ∧ x = wordLemma L (toLowerStr v) ∧ ' ' ∉ toLowerStr v ∧
      x ≠ toLowerStr v ∧ dget (builtLower dict) x = none := by
  have hm := lemmaFold_mem _ _ _ _ _ (dget_mem _ _ _ h)
  obtain ⟨h1, h2, h3, h4, h5⟩ := mem_lemmaPairs _ _ _ _ _ hm
  exact ⟨(mem_sortKeysDesc _ _).1 h1, h2, h3, h2 ▸ h4, h2 ▸ h5⟩

theorem resolve_built_mem_dict (L : Lemmatizer) (dict : List (Str × Str)) (ml k : Str)
    (h : resolveKey (builtIndex L dict) ml = some k) : k ∈ dkeys dict := by
  obtain ⟨_, hor⟩ := resolveKey_some_inv _ _ _ h
  rcases hor with h1 | h1
  · exact (builtLower_val L dict ml k h1).1
  · exact (builtLemma_val L dict ml k h1).1

theorem wordLemma_lc (L : Lemmatizer) (h : LowercaseClosed L) (w : Str)
    (hw : toLowerStr w = w) : toLowerStr (wordLemma L w) = wordLemma L w :=
  h _ (h _ hw .verb) .noun

theorem mem_dkeys_builtLower (dict : List (Str × Str)) (x : Str)
    (h : x ∈ dkeys (builtLower dict)) : ∃ v, v ∈ dkeys dict ∧ x = toLowerStr v := by
  obtain ⟨v, hv⟩ := (mem_dkeys_iff _ _).1 h
  obtain ⟨h1, h2⟩ := buildLower_mem _ _ _ hv
  exact ⟨v, (mem_sortKeysDesc _ _).1 h1, h2⟩

theorem mem_dkeys_builtLemma (L : Lemmatizer) (dict : List (Str × Str)) (x : Str)
    (h : x ∈ dkeys (builtLemma L dict)) :
    ∃ v, v ∈ dkeys dict ∧ x = wordLemma L (toLowerStr v) := by
  obtain ⟨v, hv⟩ := (mem_dkeys_iff _ _).1 h
  obtain ⟨h1, h2, _⟩ := mem_lemmaPairs _ _ _ _ _ (lemmaFold_mem _ _ _ _ _ hv)
  exact ⟨v, (mem_sortKeysDesc _ _).1 h1, h2⟩

theorem mem_builtForms (L : Lemmatizer) (dict : List (Str × Str)) (f : Str) :
    f ∈ builtForms L dict ↔
      f ∈ dkeys (builtLower dict) ∨ f ∈ dkeys (builtLemma L dict) := by
  unfold builtForms
  rw [mem_sortKeysDesc, mem_allFormsLower]

theorem resolve_built_isSome (L : Lemmatizer) (dict : List (Str × Str))
    (hlc : LowercaseClosed L) (hkeys : [] ∉ dkeys dict) (f : Str)
    (hf : f ∈ builtForms L dict) :
    ∃ k, resolveKey (builtIndex L dict) (toLowerStr f) = some k := by
  have hfix : toLowerStr f = f := by
    rcases (mem_builtForms L dict f).1 hf with h | h
    · obtain ⟨v, _, he⟩ := mem_dkeys_builtLower dict f h
      rw [he, toLowerStr_idem]
    · obtain ⟨v, _, he⟩ := mem_dkeys_builtLemma L dict f h
      rw [he]
      exact wordLemma_lc L hlc _ (toLowerStr_idem _)
  rw [hfix]
  have hval : ∀ x v, dget (builtIndex L dict).lower_to_original x = some v → v ≠ [] := by
    intro x v hv
    intro hnil
    subst hnil
    exact hkeys (builtLower_val L dict x [] hv).1
  rcases (mem_builtForms L dict f).1 hf with h | h
  · obtain ⟨v, hv⟩ := dget_isSome_of_mem_dkeys _ _ h
    have hvne : ¬ v.isEmpty = true := by
      rw [List.isEmpty_iff]
      exact hval f v hv
    have hraw : resolveRaw (builtIndex L dict) f = some v := by
      rw [resolveRaw_eq]
      show pyOr (dget (builtLower dict) f) (dget (builtLemma L dict) f) = some v
      rw [hv, pyOr_some, if_neg hvne]
    refine ⟨v, ?_⟩
    rw [resolveKey_of_raw_some _ _ v hraw, if_neg hvne]
  · obtain ⟨v, hv⟩ := dget_isSome_of_mem_dkeys _ _ h
    have hvne : ¬ v.isEmpty = true := by
      rw [List.isEmpty_iff]
      intro hnil
      subst hnil
      exact hkeys (builtLemma_val L dict f [] hv).1
    cases hl : dget (builtLower dict) f with
    | none =>
      have hraw : resolveRaw (builtIndex L dict) f = some v := by
        rw [resolveRaw_eq]
        show pyOr (dget (builtLower dict) f) (dget (builtLemma L dict) f) = some v
        rw [hl, hv, pyOr_none]
      refine ⟨v, ?_⟩
      rw [resolveKey_of_raw_some _ _ v hraw, if_neg hvne]
    | some s =>
      have hsne : ¬ s.isEmpty = true := by
        rw [List.isEmpty_iff]
        exact hval f s hl
      have hraw : resolveRaw (builtIndex L dict) f = some s := by
        rw [resolveRaw_eq]
        show pyOr (dget (builtLower dict) f) (dget (builtLemma L dict) f) = some s
        rw [hl, pyOr_some, if_neg hsne]
      refine ⟨s, ?_⟩
      rw [resolveKey_of_raw_some _ _ s hraw, if_neg hsne]

/-! ## Longest-match lemmas -/

theorem find?_longest (forms : List Str) (hs : List.Sorted lenGE forms)
    (p : Str → Bool) (f0 : Str) (h : forms.find? p = some f0) :
    ∀ f ∈ forms, p f = true → f.length ≤ f0.length := by
  induction forms with
  | nil => cases h
  | cons a l ih =>
    rw [List.find?_cons] at h
    cases hpa : p a
    · rw [hpa] at h
      intro f hf hpf
      rcases List.mem_cons.1 hf with rfl | hf
      · rw [hpf] at hpa
        cases hpa
      · exact ih hs.of_cons h f hf hpf
    · rw [hpa] at h
      cases h
      intro f hf hpf
      rcases List.mem_cons.1 hf with rfl | hf
      · exact le_refl _
      · exact List.rel_of_sorted_cons hs f hf

theorem sorted_builtForms (L : Lemmatizer) (dict : List (Str × Str)) :
    List.Sorted lenGE (builtForms L dict) :=
  List.sorted_insertionSort lenGE _

theorem finditer_longest (forms : List Str) (t : Str)
    (hs : List.Sorted lenGE forms) :
    ∀ m ∈ finditer forms t, ∀ f ∈ forms, patMatchAt t m.1 f = true →
      f.length ≤ m.2 := by
  intro m hm f hf hp
  obtain ⟨_, f0, htry, hlen⟩ := finditer_mem forms t m hm
  rw [← hlen]
  exact find?_longest forms hs _ f0 htry f hf hp

/-! ## Facts about the matcher result -/

theorem find_terms_entry (e : Engine) (t : Str) (k v : Str)
    (h : (k, v) ∈ find_terms_in_text e t) :
    (∃ ml, resolveKey e.index ml = some k) ∧ v = dgetD e.translation_dict k := by
  unfold find_terms_in_text at h
  cases hr : e.index.regexForms with
  | none =>
    rw [hr] at h
    cases h
  | some forms =>
    rw [hr] at h
    dsimp only at h
    by_cases ht : t.isEmpty
    · rw [if_pos ht] at h
      cases h
    · rw [if_neg ht] at h
      have := find_loop_invariant e t (finditer forms t)
        (fun found => ∀ k v, (k, v) ∈ found →
          (∃ ml, resolveKey e.index ml = some k) ∧ v = dgetD e.translation_dict k)
        (by
          intro found m k hres hnone hP k' v' hmem
          rcases List.mem_append.1 hmem with hm | hm
          · exact hP k' v' hm
          · rw [List.mem_singleton] at hm
            obtain ⟨he1, he2⟩ := Prod.mk.injEq .. ▸ hm
            subst he1
            subst he2
            exact ⟨⟨toLowerStr (matchedSeg t m), hres⟩, rfl⟩)
        [] (by intro k v h; cases h)
      exact this k v h

theorem find_terms_nodup (e : Engine) (t : Str) :
    (dkeys (find_terms_in_text e t)).Nodup := by
  unfold find_terms_in_text
  cases hr : e.index.regexForms with
  | none => exact List.nodup_nil
  | some forms =>
    dsimp only
    by_cases ht : t.isEmpty
    · rw [if_pos ht]
      exact List.nodup_nil
    · rw [if_neg ht]
      exact find_loop_invariant e t (finditer forms t)
        (fun found => (dkeys found).Nodup)
        (by
          intro found m k hres hnone hP
          have hk : k ∉ dkeys found := (dget_eq_none_iff found k).1 hnone
          have : dkeys (found ++ [(k, dgetD e.translation_dict k)]) =
              dkeys found ++ [k] := by
            unfold dkeys
            rw [List.map_append]
            rfl
          rw [this, List.nodup_append]
          exact ⟨hP, List.nodup_singleton k, by
            intro a ha hb
            rw [List.mem_singleton] at hb
            subst hb
            exact hk ha⟩)
        [] List.nodup_nil

/-! ## Case-variant resolution: winner characterizations -/

theorem dget_builtLower_stable (dict : List (Str × Str)) (x : Str) :
    dget (builtLower dict) x =
      ((dkeys dict).filter (fun k => toLowerStr k = x)).getLast? := by
  unfold builtLower
  rw [dget_buildLower, ← filter_getLast?_eq_find?_reverse,
    filter_sortKeysDesc _ _ (by
      intro b c hb hc
      rw [decide_eq_true_iff] at hb hc
      have hb' : (toLowerStr b).length = b.length := length_toLowerStr b
      have hc' : (toLowerStr c).length = c.length := length_toLowerStr c
      rw [hb] at hb'
      rw [hc] at hc'
      omega),
    filter_getLast?_eq_find?_reverse]

theorem scan_agree (g : Str → Option (Str × Str)) (q : Str → Bool) (l : Str)
    (hg1 : ∀ k, q k = true → g k = some (l, k))
    (hg2 : ∀ k p, g k = some p → p.2 = k) :
    ∀ (rk : List Str) (k1 : Str) (pr : Str × Str),
      rk.find? q = some k1 →
      (rk.filterMap g).find? (fun p => p.1 = l) = some pr →
      q pr.2 = true → k1 = pr.2 := by
  intro rk
  induction rk with
  | nil =>
    intro k1 pr h _ _
    cases h
  | cons a rest ih =>
    intro k1 pr h1 h2 hq2
    rw [List.find?_cons] at h1
    rw [List.filterMap_cons] at h2
    cases hqa : q a
    · rw [hqa] at h1
      cases hga : g a with
      | none =>
        rw [hga] at h2
        exact ih k1 pr h1 h2 hq2
      | some p =>
        rw [hga] at h2
        rw [List.find?_cons] at h2
        by_cases hpl : p.1 = l
        · have hd : decide (p.1 = l) = true := by simp [hpl]
          rw [hd] at h2
          cases h2
          have ha := hg2 a pr hga
          rw [ha] at hq2
          rw [hq2] at hqa
          cases hqa
        · have hd : decide (p.1 = l) = false := by simp [hpl]
          rw [hd] at h2
          exact ih k1 pr h1 h2 hq2
    · rw [hqa] at h1
      cases h1
      rw [hg1 a hqa] at h2
      rw [List.find?_cons] at h2
      have hd : decide ((l, a).1 = l) = true := by simp
      rw [hd] at h2
      cases h2
      rfl

theorem resolve_built_unique (L : Lemmatizer) (dict : List (Str × Str))
    (hkeys : [] ∉ dkeys dict) (m1 m2 k1 k2 : Str)
    (h1 : resolveKey (builtIndex L dict) m1 = some k1)
    (h2 : resolveKey (builtIndex L dict) m2 = some k2)
    (heq : toLowerStr k1 = toLowerStr k2) : k1 = k2 := by
  have hval : ∀ x v, dget (builtIndex L dict).lower_to_original x = some v → v ≠ [] := by
    intro x v hv hnil
    subst hnil
    exact hkeys (builtLower_val L dict x [] hv).1
  -- helper deriving the mixed surface/lemma case
  have hmix : ∀ ms ml ks kl : Str,
      dget (builtLower dict) ms = some ks →
      dget (builtLower dict) ml = none →
      dget (builtLemma L dict) ml = some kl →
      toLowerStr ks = toLowerStr kl → ks = kl := by
    intro ms ml ks kl hs hlnone hl hx
    obtain ⟨hksmem, hms⟩ := builtLower_val L dict ms ks hs
    obtain ⟨hklmem, hml, hsp, hne, hnone⟩ := builtLemma_val L dict ml kl hl
    -- the common lowercase class
    have hfind1 : (sortKeysDesc (dkeys dict)).reverse.find?
        (fun k => toLowerStr k = toLowerStr ks) = some ks := by
      have h0 := dget_buildLower (sortKeysDesc (dkeys dict)) ms
      rw [show buildLower (sortKeysDesc (dkeys dict)) = builtLower dict from rfl] at h0
      rw [hs, hms] at h0
      exact h0.symm
    have hfind2 : ∃ pr, ((lemmaPairs L (builtLower dict)
        (sortKeysDesc (dkeys dict))).reverse.find? (fun p => p.1 = ml)) = some pr ∧
        pr.2 = kl := by
      have := dget_lemmaFold L (builtLower dict) (sortKeysDesc (dkeys dict)) ml
      rw [show lemmaFold L (builtLower dict) (sortKeysDesc (dkeys dict)) =
        builtLemma L dict from rfl, hl] at this
      cases hf : (lemmaPairs L (builtLower dict)
          (sortKeysDesc (dkeys dict))).reverse.find? (fun p => p.1 = ml) with
      | none =>
        rw [hf] at this
        cases this
      | some pr =>
        rw [hf] at this
        exact ⟨pr, rfl, Option.some_inj.1 this.symm⟩
    obtain ⟨pr, hpr, hpr2⟩ := hfind2
    rw [show (lemmaPairs L (builtLower dict) (sortKeysDesc (dkeys dict))).reverse =
      (sortKeysDesc (dkeys dict)).reverse.filterMap
        (lemmaPairFn L (builtLower dict)) from
      (List.filterMap_reverse _ _).symm] at hpr
    have hagree := scan_agree (lemmaPairFn L (builtLower dict))
      (fun k => toLowerStr k = toLowerStr ks) ml
      (by
        intro k hk
        rw [decide_eq_true_iff] at hk
        unfold lemmaPairFn
        rw [if_neg (by rw [hk, hx]; exact hsp)]
        rw [if_pos (by rw [hk, hx, ← hml]; exact ⟨hne, hnone⟩)]
        rw [hk, hx, ← hml])
      (by
        intro k p hp
        obtain ⟨pl, pv⟩ := p
        exact (lemmaPairFn_some_inv _ _ _ _ _ hp).1)
      (sortKeysDesc (dkeys dict)).reverse ks pr hfind1 hpr
      (by rw [hpr2, decide_eq_true_iff, ← hx])
    rw [hagree, hpr2]
  -- now the four cases
  rcases resolveKey_cases _ _ _ hval h1 with hc1 | ⟨hn1, hc1⟩ <;>
    rcases resolveKey_cases _ _ _ hval h2 with hc2 | ⟨hn2, hc2⟩
  · -- surface / surface
    obtain ⟨_, hm1⟩ := builtLower_val L dict m1 k1 hc1
    obtain ⟨_, hm2⟩ := builtLower_val L dict m2 k2 hc2
    have : m1 = m2 := by rw [hm1, hm2, heq]
    rw [this, hc2] at hc1
    exact (Option.some_inj.1 hc1).symm
  · -- surface k1 / lemma k2
    exact hmix m1 m2 k1 k2 hc1 hn2 hc2 heq
  · -- lemma k1 / surface k2
    exact (hmix m2 m1 k2 k1 hc2 hn1 hc1 heq.symm).symm
  · -- lemma / lemma
    obtain ⟨_, hm1, _, _, _⟩ := builtLemma_val L dict m1 k1 hc1
    obtain ⟨_, hm2, _, _, _⟩ := builtLemma_val L dict m2 k2 hc2
    have : m1 = m2 := by rw [hm1, hm2, heq]
    rw [this, hc2] at hc1
    exact (Option.some_inj.1 hc1).symm

/-! ## Loader lemmas -/

theorem dget_dictOfRows (rows : List (Option Str × Option Str)) (k : Str) :
    dget (dictOfRows rows) k =
      ((cleanRows rows).filter (fun p => p.1 = k)).getLast?.map (·.2) := by
  unfold dictOfRows
  rw [dget_foldl_dinsert, show dget [] k = none from rfl, Option.or_none,
    filter_getLast?_eq_find?_reverse]

theorem dictOfRows_nodup (rows : List (Option Str × Option Str)) :
    (dkeys (dictOfRows rows)).Nodup :=
  nodup_dkeys_foldl_dinsert _ _ List.nodup_nil

theorem dictOfRows_sub (rows : List (Option Str × Option Str)) (k v : Str)
    (h : (k, v) ∈ dictOfRows rows) : (k, v) ∈ cleanRows rows := by
  rcases mem_foldl_dinsert _ _ _ _ h with h1 | h1
  · exact h1
  · cases h1

theorem cleanRows_mem (rows : List (Option Str × Option Str)) (k v : Str)
    (h : (k, v) ∈ cleanRows rows) : ¬ k.isEmpty = true ∧ ¬ v.isEmpty = true := by
  unfold cleanRows at h
  rw [List.mem_filterMap] at h
  obtain ⟨r, _, hf⟩ := h
  obtain ⟨o1, o2⟩ := r
  cases o1 with
  | none => cases hf
  | some s =>
    cases o2 with
    | none => cases hf
    | some t =>
      dsimp only at hf
      by_cases hc : (strip s).isEmpty || (strip t).isEmpty
      · rw [if_pos hc] at hf
        cases hf
      · rw [if_neg hc] at hf
        obtain ⟨he1, he2⟩ := Prod.mk.injEq .. ▸ (Option.some_inj.1 hf)
        subst he1
        subst he2
        simpa using hc

theorem dictOfRows_keys_ne_nil (rows : List (Option Str × Option Str)) :
    [] ∉ dkeys (dictOfRows rows) := by
  intro h
  obtain ⟨v, hv⟩ := (mem_dkeys_iff _ _).1 h
  exact (cleanRows_mem rows [] v (dictOfRows_sub rows [] v hv)).1 rfl

/-! ## Small auxiliary lemmas for the claims -/

theorem resolveKey_empty (ml : Str) : resolveKey emptySearchIndex ml = none := rfl

theorem find_terms_key (e : Engine) (t : Str) (k : Str)
    (h : k ∈ dkeys (find_terms_in_text e t)) :
    ∃ ml, resolveKey e.index ml = some k := by
  obtain ⟨v, hv⟩ := (mem_dkeys_iff _ _).1 h
  exact (find_terms_entry e t k v hv).1

theorem length_filterMap_of_isSome {α β : Type} (g : α → Option β) (l : List α)
    (h : ∀ a ∈ l, (g a).isSome = true) : (l.filterMap g).length = l.length := by
  induction l with
  | nil => rfl
  | cons a l ih =>
    rw [List.filterMap_cons]
    cases hg : g a with
    | none =>
      have := h a (List.mem_cons_self a l)
      rw [hg] at this
      cases this
    | some b =>
      rw [List.length_cons, ih (fun x hx => h x (List.mem_cons_of_mem a hx)),
        List.length_cons]

/-! ## Claim theorems -/

/-- Claim C1 (code bug): when the NLTK data cannot be obtained — the
manager's startup returns `False` and the process-wide lemmatizer stays
`None` — `build_search_indexes` over the non-empty dictionary
`runDict` does not degrade to surface-only matching with a soft warning:
the single-word key makes the loop call `lemmatize_word`, which
dereferences the `None` lemmatizer and raises `AttributeError`, crashing
the whole build.  This contradicts the documented soft-failure design. -/
theorem c1_build_crashes_when_resolver_unavailable :
    build_search_indexes none runDict = .error .attributeError := by decide

/-- Claim C2 (counterexample): with the test resolver, the dictionary keys
"runs" and "ran" (processed in this length-descending order) both produce
the lemma "run"; the claim's first-writer-wins semantics would record
"runs", but the built lemma map records "ran" — the later write
overwrites the earlier one. -/
theorem c2_counterexample :
    build_search_indexes (some runLemm) runsRanDict =
      .ok (builtIndex runLemm runsRanDict) ∧
    sortKeysDesc (dkeys runsRanDict) = ["runs".data, "ran".data] ∧
    lemmaPairFn runLemm (builtLower runsRanDict) ("runs".data) =
      some ("run".data, "runs".data) ∧
    lemmaPairFn runLemm (builtLower runsRanDict) ("ran".data) =
      some ("run".data, "ran".data) ∧
    dget (builtIndex runLemm runsRanDict).lemma_map ("run".data) =
      some ("ran".data) := by decide

/-- Claim C2 (amended): during `build_search_indexes`, qualifying lemmas are
registered with last-writer-wins semantics: the lemma map entry for a lemma
`l` is the pair written by the **last** key, in the length-descending
processing order, that produces `l` (later writes overwrite earlier ones). -/
theorem c2_lemma_map_last_writer_wins (L : Lemmatizer) (dict : List (Str × Str))
    (e : Engine) (hb : buildEngine (some L) dict = .ok e) (hne : dict ≠ [])
    (l : Str) :
    dget e.index.lemma_map l =
      ((lemmaPairs L (builtLower dict) (sortKeysDesc (dkeys dict))).filter
        (fun p => p.1 = l)).getLast?.map (·.2) := by
  obtain ⟨_, hidx⟩ := buildEngine_some_inv L dict e hb
  rw [if_neg hne] at hidx
  rw [hidx]
  show dget (builtLemma L dict) l = _
  unfold builtLemma
  rw [dget_lemmaFold, filter_getLast?_eq_find?_reverse]

/-- Witness for the amended C2 at the concrete runs/ran dictionary. -/
theorem c2_witness :
    dget (Engine.mk runsRanDict (builtIndex runLemm runsRanDict)).index.lemma_map
        ("run".data) =
      ((lemmaPairs runLemm (builtLower runsRanDict)
        (sortKeysDesc (dkeys runsRanDict))).filter
          (fun p => p.1 = "run".data)).getLast?.map (·.2) :=
  c2_lemma_map_last_writer_wins runLemm runsRanDict
    (Engine.mk runsRanDict (builtIndex runLemm runsRanDict)) (by decide)
    (by decide) ("run".data)

/-- Claim C3 (counterexample): a parsed source with two columns whose only
row is dropped during cleaning (its source cell is whitespace) leaves zero
valid rows, yet `load_translation_table` does not fail with
`EmptyOrMalformedSource`: it returns the empty dictionary with count 0. -/
theorem c3_counterexample :
    cleanRows [(some " ".data, some "x".data)] = [] ∧
    load_translation_table (some (2, [(some " ".data, some "x".data)])) =
      .ok ([], 0) := by decide

/-- Claim C3 (amended): `load_translation_table` fails with
`EmptyOrMalformedSource` exactly when the parsed input has fewer than two
columns (and with `SourceUnreadable` when the input cannot be parsed at
all); with two or more columns it succeeds even when zero valid rows remain
after cleaning, returning the cleaned dictionary and its entry count. -/
theorem c3_load_error_iff :
    (load_translation_table none = .error .sourceUnreadable) ∧
    ∀ (n : Nat) (rows : List (Option Str × Option Str)),
      (n < 2 → load_translation_table (some (n, rows)) =
        .error .emptyOrMalformedSource) ∧
      (2 ≤ n → load_translation_table (some (n, rows)) =
        .ok (dictOfRows rows, (dictOfRows rows).length)) := by
  refine ⟨rfl, ?_⟩
  intro n rows
  constructor
  · intro h
    unfold load_translation_table
    dsimp only
    rw [if_pos h]
  · intro h
    unfold load_translation_table
    dsimp only
    rw [if_neg (by omega)]

/-- Witness for the amended C3: a one-column source is rejected, and a
two-column source with zero valid rows loads successfully with count 0. -/
theorem c3_witness :
    load_translation_table (some (1, [])) = .error .emptyOrMalformedSource ∧
    load_translation_table (some (2, [(some " ".data, some "x".data)])) =
      .ok (dictOfRows [(some " ".data, some "x".data)],
        (dictOfRows [(some " ".data, some "x".data)]).length) :=
  ⟨(c3_load_error_iff.2 1 []).1 (by decide),
    (c3_load_error_iff.2 2 [(some " ".data, some "x".data)]).2 (by decide)⟩

/-- Claim C9: loading builds the dictionary in a single linear pass —
both fields trimmed, rows with an empty trimmed field dropped, duplicate
source keys resolved last-write-wins into a key-unique mapping, and the
returned count is the number of retained entries. -/
theorem c9_load_single_pass :
    ∀ (n : Nat) (rows : List (Option Str × Option Str)), 2 ≤ n →
      load_translation_table (some (n, rows)) =
        .ok (dictOfRows rows, (dictOfRows rows).length) ∧
      (dkeys (dictOfRows rows)).Nodup ∧
      (∀ k, dget (dictOfRows rows) k =
        ((cleanRows rows).filter (fun p => p.1 = k)).getLast?.map (·.2)) ∧
      (∀ k v, (k, v) ∈ dictOfRows rows → (k, v) ∈ cleanRows rows) := by
  intro n rows h
  refine ⟨?_, dictOfRows_nodup rows, dget_dictOfRows rows, dictOfRows_sub rows⟩
  unfold load_translation_table
  dsimp only
  rw [if_neg (by omega)]

/-- Witness for C9 on a concrete source with a duplicate key, an all-blank
row and a NaN row: the later duplicate wins and the count is 1. -/
theorem c9_witness :
    load_translation_table (some (3, [(some "a".data, some "1".data),
        (some " a ".data, some "2".data), (none, some "z".data)])) =
      .ok (dictOfRows [(some "a".data, some "1".data),
        (some " a ".data, some "2".data), (none, some "z".data)],
        (dictOfRows [(some "a".data, some "1".data),
          (some " a ".data, some "2".data), (none, some "z".data)]).length) ∧
    dget (dictOfRows [(some "a".data, some "1".data),
        (some " a ".data, some "2".data), (none, some "z".data)]) ("a".data) =
      some ("2".data) := by
  have h := c9_load_single_pass 3 [(some "a".data, some "1".data),
    (some " a ".data, some "2".data), (none, some "z".data)] (by decide)
  exact ⟨h.1, (h.2.2.1 ("a".data)).trans (by decide)⟩

/-- Claim C4: longest-match precedence.  For any engine built over a loaded
dictionary, whenever several pattern alternatives could match at the same
start offset of a scan, the matched length is at least the length of every
alternative that matches there (the length-descending alternation makes the
longest win); and on the concrete dictionary, finding terms in
"a fire ball spell" yields exactly the "fire ball" entry and not "fire". -/
theorem c4_longest_match :
    (∀ (L : Lemmatizer) (dict : List (Str × Str)) (e : Engine) (t : Str)
      (forms : List Str),
      buildEngine (some L) dict = .ok e → e.index.regexForms = some forms →
      ∀ m ∈ finditer forms t, ∀ f ∈ forms, patMatchAt t m.1 f = true →
        f.length ≤ m.2) ∧
    build_search_indexes (some idLemm) fireDict = .ok fireEngine.index ∧
    find_terms_in_text fireEngine ("a fire ball spell".data) =
      [("fire ball".data, "火球术".data)] ∧
    "fire".data ∉ dkeys (find_terms_in_text fireEngine ("a fire ball spell".data)) := by
  refine ⟨?_, by decide, by decide, by decide⟩
  intro L dict e t forms hb hf m hm f hfm hp
  obtain ⟨_, hidx⟩ := buildEngine_some_inv L dict e hb
  by_cases hd : dict = []
  · rw [if_pos hd] at hidx
    rw [hidx] at hf
    cases hf
  · rw [if_neg hd] at hidx
    rw [hidx] at hf
    have hforms : forms = builtForms L dict := by
      have : (builtIndex L dict).regexForms = some (builtForms L dict) := rfl
      rw [this] at hf
      exact (Option.some_inj.1 hf).symm
    subst hforms
    exact finditer_longest _ t (sorted_builtForms L dict) m hm f hfm hp

/-- Witness for C4: in "a fire ball spell" the dictionary form "fire" also
matches at offset 2 where the scan matched a span of length 9 ("fire
ball"), and the theorem bounds its length by the matched length. -/
theorem c4_witness : ("fire".data).length ≤ (2, 9).2 :=
  c4_longest_match.1 idLemm fireDict
    (Engine.mk fireDict (builtIndex idLemm fireDict)) ("a fire ball spell".data)
    (builtForms idLemm fireDict) (by decide) (by decide) (2, 9) (by decide)
    ("fire".data) (by decide) (by decide)

/-- Claim C5: the rewrite is exactly the collected splices.  For an engine
built over a loaded dictionary, when a pattern exists and the text is
non-empty the rewriter's output equals the interleaving of the untouched
gaps of the input with the template expansions of the collected matches
(each `\x7boriginal\x7d` bound to the matched text with its source casing,
each `\x7btranslation\x7d` to the dictionary translation), applied in
descending start order; consequently output length + total replaced-span
length = input length + total replacement length.  With no pattern or an
empty text the input is returned unchanged. -/
theorem c5_rewrite_characterization (L : Lemmatizer) (dict : List (Str × Str))
    (e : Engine) (t : Str) (tmpl : Template)
    (hb : buildEngine (some L) dict = .ok e) :
    (∀ forms, e.index.regexForms = some forms → ¬ t.isEmpty = true →
      attach_translations_to_text e t tmpl =
        renderFrom t 0 (attachReplacements e forms t tmpl) ∧
      (attach_translations_to_text e t tmpl).length +
          sumSpans (attachReplacements e forms t tmpl) =
        t.length + sumRepl (attachReplacements e forms t tmpl)) ∧
    ((e.index.regexForms = none ∨ t.isEmpty = true) →
      attach_translations_to_text e t tmpl = t) := by
  constructor
  · intro forms hf ht
    have hok : SplicesOK t.length 0 (attachReplacements e forms t tmpl) := by
      rw [attachReplacements_eq]
      exact splicesOK_filterMap t.length _
        (by
          intro m r hr
          obtain ⟨k, _, he⟩ := Option.map_eq_some'.1 hr
          rw [← he]
          exact ⟨rfl, rfl⟩)
        0 (finditer forms t) (finditer_spaced forms t)
    have hout : attach_translations_to_text e t tmpl =
        renderFrom t 0 (attachReplacements e forms t tmpl) := by
      rw [attach_eq_splices e forms t tmpl hf ht,
        applySplices_render t _ 0 hok, List.take_zero, List.nil_append]
    refine ⟨hout, ?_⟩
    rw [hout]
    have := renderFrom_length t (attachReplacements e forms t tmpl) 0 hok
      (Nat.zero_le _)
    omega
  · intro hor
    unfold attach_translations_to_text
    rcases hor with h | h
    · rw [h]
    · cases hr : e.index.regexForms with
      | none => rfl
      | some forms =>
        dsimp only
        rw [if_pos h]

/-- Witness for C5 on the orc dictionary and "orc orc orc". -/
theorem c5_witness :
    attach_translations_to_text (Engine.mk orcDict (builtIndex idLemm orcDict))
        ("orc orc orc".data) slashTmpl =
      renderFrom ("orc orc orc".data) 0
        (attachReplacements (Engine.mk orcDict (builtIndex idLemm orcDict))
          (builtForms idLemm orcDict) ("orc orc orc".data) slashTmpl) ∧
    (attach_translations_to_text (Engine.mk orcDict (builtIndex idLemm orcDict))
        ("orc orc orc".data) slashTmpl).length +
      sumSpans (attachReplacements (Engine.mk orcDict (builtIndex idLemm orcDict))
        (builtForms idLemm orcDict) ("orc orc orc".data) slashTmpl) =
      ("orc orc orc".data).length +
      sumRepl (attachReplacements (Engine.mk orcDict (builtIndex idLemm orcDict))
        (builtForms idLemm orcDict) ("orc orc orc".data) slashTmpl) :=
  (c5_rewrite_characterization idLemm orcDict
    (Engine.mk orcDict (builtIndex idLemm orcDict)) ("orc orc orc".data)
    slashTmpl (by decide)).1 (builtForms idLemm orcDict) (by decide) (by decide)

/-- Claim C6: for an engine built over a loaded dictionary, every entry the
matcher returns pairs a dictionary key with that key's own translation. -/
theorem c6_find_terms_subset (L : Lemmatizer) (dict : List (Str × Str))
    (e : Engine) (t : Str) (hb : buildEngine (some L) dict = .ok e) :
    ∀ k v, (k, v) ∈ find_terms_in_text e t →
      k ∈ dkeys dict ∧ dget dict k = some v := by
  intro k v h
  obtain ⟨⟨ml, hres⟩, hv⟩ := find_terms_entry e t k v h
  obtain ⟨hdict, hidx⟩ := buildEngine_some_inv L dict e hb
  by_cases hd : dict = []
  · rw [if_pos hd] at hidx
    rw [hidx, resolveKey_empty] at hres
    cases hres
  · rw [if_neg hd] at hidx
    rw [hidx] at hres
    have hk := resolve_built_mem_dict L dict ml k hres
    refine ⟨hk, ?_⟩
    obtain ⟨w, hw⟩ := dget_isSome_of_mem_dkeys dict k hk
    rw [hv, hdict]
    unfold dgetD
    rw [hw]
    simpa using hw

/-- Witness for C6 at the orc dictionary. -/
theorem c6_witness :
    "orc".data ∈ dkeys orcDict ∧ dget orcDict ("orc".data) = some ("兽人".data) :=
  c6_find_terms_subset idLemm orcDict (Engine.mk orcDict (builtIndex idLemm orcDict))
    ("an orc camp".data) (by decide) ("orc".data) ("兽人".data) (by decide)

/-- Claim C7: the matcher deduplicates per canonical key (its key list has
no duplicates for any engine and text), while the rewriter replaces every
occurrence independently; on D = orc/兽人 and "orc orc orc" the matcher
returns exactly one entry and the rewriter with the "original/translation"
template rewrites all three occurrences. -/
theorem c7_dedup_vs_multiplicity :
    (∀ (e : Engine) (t : Str), (dkeys (find_terms_in_text e t)).Nodup) ∧
    build_search_indexes (some idLemm) orcDict = .ok orcEngine.index ∧
    find_terms_in_text orcEngine ("orc orc orc".data) =
      [("orc".data, "兽人".data)] ∧
    attach_translations_to_text orcEngine ("orc orc orc".data) slashTmpl =
      "orc/兽人 orc/兽人 orc/兽人".data :=
  ⟨find_terms_nodup, by decide, by decide, by decide⟩

/-- Claim C8: with a resolver that keeps lowercase words lowercase and a
loaded dictionary (non-empty keys), every span the compiled pattern accepts
resolves to a canonical key — the unresolved branch of the rewriter, which
would silently drop a match, is unreachable: the replacement list has one
entry per scanned match. -/
theorem c8_every_match_resolves (L : Lemmatizer) (dict : List (Str × Str))
    (e : Engine) (t : Str) (tmpl : Template) (forms : List Str)
    (hlc : LowercaseClosed L) (hkeys : [] ∉ dkeys dict)
    (hb : buildEngine (some L) dict = .ok e)
    (hf : e.index.regexForms = some forms) :
    (∀ m ∈ finditer forms t,
      ∃ k, resolveKey e.index (toLowerStr (matchedSeg t m)) = some k) ∧
    (attachReplacements e forms t tmpl).length = (finditer forms t).length := by
  obtain ⟨_, hidx⟩ := buildEngine_some_inv L dict e hb
  by_cases hd : dict = []
  · rw [if_pos hd] at hidx
    rw [hidx] at hf
    cases hf
  · rw [if_neg hd] at hidx
    have hforms : forms = builtForms L dict := by
      rw [hidx] at hf
      have : (builtIndex L dict).regexForms = some (builtForms L dict) := rfl
      rw [this] at hf
      exact (Option.some_inj.1 hf).symm
    have hres : ∀ m ∈ finditer forms t,
        ∃ k, resolveKey e.index (toLowerStr (matchedSeg t m)) = some k := by
      intro m hm
      obtain ⟨_, f0, htry, hlen⟩ := finditer_mem forms t m hm
      obtain ⟨hf0, hpat⟩ := tryForms_some_of_find forms t m.1 f0 htry
      have hml : toLowerStr (matchedSeg t m) = toLowerStr f0 := by
        have hlit := (patMatchAt_parts t m.1 f0 hpat).2.1
        unfold litMatchAt at hlit
        rw [decide_eq_true_iff] at hlit
        unfold matchedSeg
        rw [← hlen]
        exact hlit
      rw [hml, hidx]
      rw [hforms] at hf0
      exact resolve_built_isSome L dict hlc hkeys f0 hf0
    refine ⟨hres, ?_⟩
    rw [attachReplacements_eq]
    exact length_filterMap_of_isSome _ _ (by
      intro m hm
      obtain ⟨k, hk⟩ := hres m hm
      rw [hk]
      rfl)

/-- Witness for C8 on the orc dictionary: every match of "orc camp orc"
resolves; the replacement list is as long as the match list. -/
theorem c8_witness :
    (attachReplacements (Engine.mk orcDict (builtIndex idLemm orcDict))
        (builtForms idLemm orcDict) ("orc camp orc".data) slashTmpl).length =
      (finditer (builtForms idLemm orcDict) ("orc camp orc".data)).length :=
  (c8_every_match_resolves idLemm orcDict
    (Engine.mk orcDict (builtIndex idLemm orcDict)) ("orc camp orc".data)
    slashTmpl (builtForms idLemm orcDict) (fun _ hw _ => hw) (by decide)
    (by decide) (by decide)).2

/-- Claim C10: keys differing only in letter case.  For an engine built
over a loaded dictionary (keys non-empty), the surface map binds each
lowercase form to the last key with that lowercase form in the original
key order (case-variants have equal length, so the stable length-descending
sort preserves their relative order and the dictionary-comprehension's
later-wins overwrite selects the variant that comes last); moreover the
resolution used by both the matcher and the rewriter never maps two
lookups to distinct keys that agree after lowercasing, so the matcher
never reports two keys differing only by case. -/
theorem c10_case_variant_binding (L : Lemmatizer) (dict : List (Str × Str))
    (e : Engine) (hb : buildEngine (some L) dict = .ok e)
    (hkeys : [] ∉ dkeys dict) :
    (∀ x, dget e.index.lower_to_original x =
      ((dkeys dict).filter (fun k => toLowerStr k = x)).getLast?) ∧
    (∀ m1 m2 k1 k2, resolveKey e.index m1 = some k1 →
      resolveKey e.index m2 = some k2 → toLowerStr k1 = toLowerStr k2 →
      k1 = k2) ∧
    (∀ t k1 k2, k1 ∈ dkeys (find_terms_in_text e t) →
      k2 ∈ dkeys (find_terms_in_text e t) → toLowerStr k1 = toLowerStr k2 →
      k1 = k2) := by
  obtain ⟨_, hidx⟩ := buildEngine_some_inv L dict e hb
  by_cases hd : dict = []
  · rw [if_pos hd] at hidx
    subst hd
    refine ⟨?_, ?_, ?_⟩
    · intro x
      rw [hidx]
      rfl
    · intro m1 m2 k1 k2 h1 h2 _
      rw [hidx, resolveKey_empty] at h1
      cases h1
    · intro t k1 k2 h1 h2 _
      obtain ⟨ml, hml⟩ := find_terms_key e t k1 h1
      rw [hidx, resolveKey_empty] at hml
      cases hml
  · rw [if_neg hd] at hidx
    have huniq : ∀ m1 m2 k1 k2, resolveKey e.index m1 = some k1 →
        resolveKey e.index m2 = some k2 → toLowerStr k1 = toLowerStr k2 →
        k1 = k2 := by
      intro m1 m2 k1 k2 h1 h2 heq
      rw [hidx] at h1 h2
      exact resolve_built_unique L dict hkeys m1 m2 k1 k2 h1 h2 heq
    refine ⟨?_, huniq, ?_⟩
    · intro x
      rw [hidx]
      exact dget_builtLower_stable dict x
    · intro t k1 k2 h1 h2 heq
      obtain ⟨m1, hm1⟩ := find_terms_key e t k1 h1
      obtain ⟨m2, hm2⟩ := find_terms_key e t k2 h2
      exact huniq m1 m2 k1 k2 hm1 hm2 heq

/-- Witness for C10 at a dictionary whose keys "Running" and "running"
differ only in case: the shared lowercase form is bound to the variant
that comes last. -/
theorem c10_witness :
    dget (Engine.mk caseDict (builtIndex runLemm caseDict)).index.lower_to_original
        ("running".data) =
      ((dkeys caseDict).filter
        (fun k => toLowerStr k = "running".data)).getLast? :=
  (c10_case_variant_binding runLemm caseDict
    (Engine.mk caseDict (builtIndex runLemm caseDict)) (by decide)
    (by decide)).1 ("running".data)
